import Mathlib

/-!
Verification of the Servoo catalog/matching core against its specification.

The development shallowly embeds the two source modules the claims concern:

* `DATA_ENGINEERING/Code/Merging_code.py` — attribute extraction
  (`extract_weight_quantity`, `extract_units_per_carton`,
  `detect_packaging_type`) and catalog consolidation (`final_df`);
* `DATA_SCRAPING/CODE/2COSINE/Cosine_Similarity_Code.py` — the TF-IDF
  similarity scorer (`compute_similarity`) and the per-record match
  resolution loop of `main`.

Python strings are modelled as `List Char` (`str.upper`/`str.lower`/
`str.strip` as character maps and whitespace trimming, ASCII semantics).
Python's `re` searches are modelled by position-by-position scanners that
reproduce each concrete pattern's leftmost-match and backtracking
behaviour; where a regex element is deterministic on the concrete pattern
(a greedy `\d+` followed by a non-digit requirement, a greedy `\s*`
followed by a non-space requirement) the scanner uses `takeWhile`/
`dropWhile` directly.  Python floats are modelled exactly: parsed decimal
literals as `ℚ`, the similarity arithmetic as `ℝ`; `round` is modelled by
its documented round-half-to-even semantics on the exact value.
-/

/-! ### Python string primitives -/

/-- Whitespace characters stripped by `str.strip()` and matched by `\s`
(the ASCII subset, which is all the catalog data contains). -/
def pyWs (c : Char) : Bool :=
  c = ' ' || c = '\t' || c = '\n' || c = '\r' || c = '\x0b' || c = '\x0c'

/-- Model of `str.lower()`. -/
def pyLower (s : List Char) : List Char := s.map Char.toLower

/-- Model of `str.upper()`. -/
def upperChars (s : List Char) : List Char := s.map Char.toUpper

/-- Leading-whitespace removal (first half of `str.strip()`). -/
def stripStart (s : List Char) : List Char := s.dropWhile pyWs

/-- Trailing-whitespace removal (second half of `str.strip()`). -/
def stripEnd : List Char → List Char
  | [] => []
  | c :: t =>
    let r := stripEnd t
    if r = [] && pyWs c then [] else c :: r

/-- Model of `str.strip()`. -/
def pyStrip (s : List Char) : List Char := stripEnd (stripStart s)

/-- Bool test that `p` is a prefix of `l` (used for literal regex tokens). -/
def isPrefB : List Char → List Char → Bool
  | [], _ => true
  | _ :: _, [] => false
  | a :: as, b :: bs => a = b && isPrefB as bs

/-- Drop a literal prefix, returning the remainder when it matches. -/
def dropPre : List Char → List Char → Option (List Char)
  | [], l => some l
  | _ :: _, [] => none
  | a :: as, b :: bs => if a = b then dropPre as bs else none

/-- Bool test that `pat` occurs as a contiguous substring of `l`
(Python's `pat in l`, for nonempty `pat`). -/
def hasInfixB (pat : List Char) : List Char → Bool
  | [] => isPrefB pat []
  | c :: t => isPrefB pat (c :: t) || hasInfixB pat t

/-- Regex word character `\w` (ASCII letters, digits, underscore). -/
def isWordCh (c : Char) : Bool := c.isAlphanum || c = '_'

/-- Regex digit `\d` (code points of `'0'`..`'9'`). -/
def isDigitCh (c : Char) : Bool := 48 ≤ c.toNat && c.toNat ≤ 57

/-- Numeric value of a digit string, as computed by Python's `int()`. -/
def digitsVal (ds : List Char) : ℕ := ds.foldl (fun a c => 10 * a + (c.toNat - 48)) 0

/-- Greedy `\d+`/`\d*`: the maximal digit prefix. -/
def takeDigits (l : List Char) : List Char := l.takeWhile isDigitCh

/-- Remainder after the maximal digit prefix. -/
def afterDigits (l : List Char) : List Char := l.dropWhile isDigitCh

/-- Greedy `\s*` when the following regex element cannot match whitespace. -/
def skipWs (l : List Char) : List Char := l.dropWhile pyWs

/-! ### Decimal rendering of numbers (Python `f"{n}"`) -/

/-- Fuel-driven base-10 rendering; `natRepr` supplies sufficient fuel. -/
def natReprAux : ℕ → ℕ → List Char
  | 0, _ => []
  | fuel + 1, n =>
    if n < 10 then [Char.ofNat (48 + n)]
    else natReprAux fuel (n / 10) ++ [Char.ofNat (48 + n % 10)]

/-- Decimal rendering of a natural number. -/
def natRepr (n : ℕ) : List Char := natReprAux (n + 1) n

/-- Decimal rendering of an integer (Python `f"{int_value}"`). -/
def intRepr (z : ℤ) : List Char := if z < 0 then '-' :: natRepr z.natAbs else natRepr z.toNat

/-! ### Python `round` (banker's rounding) on exact values -/

/-- Python 3 `round(x)`: nearest integer, ties to the even integer.  The
argument is the exact value of the rounded quantity (the pipeline's
quantities are short decimals whose float computations are exact). -/
def pyRoundHalfEvenQ (x : ℚ) : ℤ :=
  if x - ⌊x⌋ < 1 / 2 then ⌊x⌋
  else if 1 / 2 < x - ⌊x⌋ then ⌊x⌋ + 1
  else if 2 ∣ ⌊x⌋ then ⌊x⌋ else ⌊x⌋ + 1

/-- Round-half-away-from-zero, the rounding rule the specification asserts;
defined here only to compare against the source's behaviour. -/
def roundHalfAwayQ (x : ℚ) : ℤ :=
  if x - ⌊x⌋ < 1 / 2 then ⌊x⌋
  else if 1 / 2 < x - ⌊x⌋ then ⌊x⌋ + 1
  else if x < 0 then ⌊x⌋ else ⌊x⌋ + 1

example : pyRoundHalfEvenQ (5 / 2) = 2 := by
  simp only [pyRoundHalfEvenQ]
  norm_num
example : roundHalfAwayQ (5 / 2) = 3 := by
  simp only [roundHalfAwayQ]
  norm_num
example : natRepr 2500 = "2500".data := by decide

/-! ### Packaging classifier (`detect_packaging_type`, Merging_code.py 237-249)

The input is `Option (List Char)`: `none` models a `NaN` cell (`pd.isna`).
`any(k in name for k in carton_keywords)` iterates a Python `set`, whose
order is irrelevant to the disjunction, so the three containment tests are
written in a fixed order. -/

def detect_packaging_type (name : Option (List Char)) : List Char :=
  match name with
  | none => "NON-CTN".data
  | some s =>
    if hasInfixB "CTN".data (upperChars (pyStrip s)) ||
        hasInfixB "CARTON".data (upperChars (pyStrip s)) ||
        hasInfixB "CARTONS".data (upperChars (pyStrip s))
    then "CTN".data else "NON-CTN".data

/-! Auxiliary character/string lemmas: stripping whitespace does not change
whether a nonempty whitespace-free keyword occurs as a substring, and
`str.upper` commutes with `str.strip`. -/

theorem pyWs_toUpper (c : Char) : pyWs (Char.toUpper c) = pyWs c := by
  have hc := Char.ofNat_toNat c
  simp only [Char.toUpper]
  by_cases h : 97 ≤ c.toNat ∧ c.toNat ≤ 122
  · rw [if_pos h]
    obtain ⟨h1, h2⟩ := h
    rw [← hc]
    set n := c.toNat with hn
    interval_cases n <;> decide
  · rw [if_neg h]

theorem isPrefB_false_of_ws_head (k : List Char) (hk : k ≠ [])
    (hkw : ∀ c ∈ k, pyWs c = false) (c : Char) (hc : pyWs c = true) (t : List Char) :
    isPrefB k (c :: t) = false := by
  match k, hk with
  | a :: as, _ =>
    have ha : pyWs a = false := hkw a (by simp)
    have : a ≠ c := fun h => by rw [h, hc] at ha; cases ha
    simp [isPrefB, this]

theorem hasInfixB_stripStart (k : List Char) (hk : k ≠ [])
    (hkw : ∀ c ∈ k, pyWs c = false) (l : List Char) :
    hasInfixB k (stripStart l) = hasInfixB k l := by
  induction l with
  | nil => rfl
  | cons c t ih =>
    by_cases hc : pyWs c = true
    · have h1 : stripStart (c :: t) = stripStart t := by
        simp [stripStart, List.dropWhile, hc]
      rw [h1, ih]
      have h2 : hasInfixB k (c :: t) = (isPrefB k (c :: t) || hasInfixB k t) := rfl
      rw [h2, isPrefB_false_of_ws_head k hk hkw c hc t, Bool.false_or]
    · have h1 : stripStart (c :: t) = c :: t := by
        simp only [stripStart, List.dropWhile]
        rw [Bool.not_eq_true] at hc
        rw [hc]
      rw [h1]

theorem stripEnd_cons (c : Char) (t : List Char) :
    stripEnd (c :: t) = if (stripEnd t = [] && pyWs c) = true then [] else c :: stripEnd t := rfl

theorem stripEnd_eq_nil_all_ws (l : List Char) (h : stripEnd l = []) :
    ∀ c ∈ l, pyWs c = true := by
  induction l with
  | nil => intro c hc; cases hc
  | cons c t ih =>
    rw [stripEnd_cons] at h
    by_cases hb : (stripEnd t = [] && pyWs c) = true
    · rw [Bool.and_eq_true] at hb
      obtain ⟨hb1, hb2⟩ := hb
      intro x hx
      rcases List.mem_cons.mp hx with hx | hx
      · rw [hx]; exact hb2
      · exact ih (by simpa using hb1) x hx
    · rw [if_neg hb] at h
      cases h

theorem hasInfixB_eq_false_of_all_ws (k : List Char) (hk : k ≠ [])
    (hkw : ∀ c ∈ k, pyWs c = false) (l : List Char) (hl : ∀ c ∈ l, pyWs c = true) :
    hasInfixB k l = false := by
  induction l with
  | nil => match k, hk with | a :: as, _ => rfl
  | cons c t ih =>
    show (isPrefB k (c :: t) || hasInfixB k t) = false
    rw [isPrefB_false_of_ws_head k hk hkw c (hl c (by simp)) t, Bool.false_or]
    exact ih (fun x hx => hl x (by simp [hx]))

theorem isPrefB_stripEnd (k : List Char) (hkw : ∀ c ∈ k, pyWs c = false)
    (l : List Char) : isPrefB k (stripEnd l) = isPrefB k l := by
  induction l generalizing k with
  | nil => rfl
  | cons c t ih =>
    match k with
    | [] => rfl
    | a :: as =>
      have ha : pyWs a = false := hkw a (by simp)
      rw [stripEnd_cons]
      by_cases hb : (stripEnd t = [] && pyWs c) = true
      · rw [Bool.and_eq_true] at hb
        obtain ⟨hb1, hb2⟩ := hb
        rw [if_pos (by rw [show stripEnd t = [] by simpa using hb1, hb2]; rfl)]
        have hne : a ≠ c := fun h => by rw [h, hb2] at ha; cases ha
        show false = isPrefB (a :: as) (c :: t)
        simp [isPrefB, hne]
      · rw [if_neg hb]
        show (a = c && isPrefB as (stripEnd t)) = (a = c && isPrefB as t)
        rw [ih as (fun x hx => hkw x (by simp [hx]))]

theorem hasInfixB_stripEnd (k : List Char) (hk : k ≠ [])
    (hkw : ∀ c ∈ k, pyWs c = false) (l : List Char) :
    hasInfixB k (stripEnd l) = hasInfixB k l := by
  induction l with
  | nil => rfl
  | cons c t ih =>
    rw [stripEnd_cons]
    by_cases hb : (stripEnd t = [] && pyWs c) = true
    · rw [Bool.and_eq_true] at hb
      obtain ⟨hb1, hb2⟩ := hb
      have hb1' : stripEnd t = [] := by simpa using hb1
      rw [if_pos (by rw [hb1', hb2]; rfl)]
      have hnil : hasInfixB k ([] : List Char) = false := by
        match k, hk with | a :: as, _ => rfl
      rw [hnil]
      have hts : ∀ x ∈ t, pyWs x = true := stripEnd_eq_nil_all_ws t hb1'
      have h2 : hasInfixB k (c :: t) = (isPrefB k (c :: t) || hasInfixB k t) := rfl
      rw [h2, isPrefB_false_of_ws_head k hk hkw c hb2 t, Bool.false_or,
        hasInfixB_eq_false_of_all_ws k hk hkw t hts]
    · rw [if_neg hb]
      show (isPrefB k (c :: stripEnd t) || hasInfixB k (stripEnd t)) =
        (isPrefB k (c :: t) || hasInfixB k t)
      rw [ih]
      match k, hk with
      | a :: as, _ =>
        show ((a = c && isPrefB as (stripEnd t)) || _) = ((a = c && isPrefB as t) || _)
        rw [isPrefB_stripEnd as (fun x hx => hkw x (by simp [hx]))]

theorem hasInfixB_pyStrip (k : List Char) (hk : k ≠ [])
    (hkw : ∀ c ∈ k, pyWs c = false) (l : List Char) :
    hasInfixB k (pyStrip l) = hasInfixB k l := by
  unfold pyStrip
  rw [hasInfixB_stripEnd k hk hkw, hasInfixB_stripStart k hk hkw]

theorem stripStart_upperChars (l : List Char) :
    stripStart (upperChars l) = upperChars (stripStart l) := by
  induction l with
  | nil => rfl
  | cons c t ih =>
    show List.dropWhile pyWs (Char.toUpper c :: List.map Char.toUpper t) = _
    rw [List.dropWhile_cons]
    by_cases h : pyWs c = true
    · rw [if_pos (by rw [pyWs_toUpper]; exact h)]
      have h2 : stripStart (c :: t) = stripStart t := by
        simp [stripStart, List.dropWhile_cons, h]
      rw [h2]; exact ih
    · rw [Bool.not_eq_true] at h
      rw [if_neg (by rw [pyWs_toUpper, h]; exact Bool.false_ne_true)]
      have h2 : stripStart (c :: t) = c :: t := by
        simp [stripStart, List.dropWhile_cons, h]
      rw [h2]; rfl

theorem stripEnd_upperChars (l : List Char) :
    stripEnd (upperChars l) = upperChars (stripEnd l) := by
  induction l with
  | nil => rfl
  | cons c t ih =>
    have hmap : upperChars (c :: t) = Char.toUpper c :: upperChars t := rfl
    rw [hmap, stripEnd_cons, stripEnd_cons, ih]
    by_cases hb1 : stripEnd t = []
    · by_cases hb2 : pyWs c = true
      · rw [if_pos (by simp [hb1, upperChars, pyWs_toUpper, hb2]),
          if_pos (by simp [hb1, hb2])]
        rfl
      · rw [Bool.not_eq_true] at hb2
        rw [if_neg (by simp [pyWs_toUpper, hb2]),
          if_neg (by simp [hb2])]
        rfl
    · have hb1u : ¬upperChars (stripEnd t) = [] := fun h =>
        hb1 (by simpa [upperChars] using h)
      rw [if_neg (by simp [hb1u]), if_neg (by simp [hb1])]
      rfl

theorem upperChars_pyStrip (l : List Char) :
    upperChars (pyStrip l) = pyStrip (upperChars l) := by
  unfold pyStrip
  rw [stripStart_upperChars, stripEnd_upperChars]

/-- Claim C9: the Packaging Classifier is total and binary — for every
input (string or null) it returns exactly one of CTN / NON-CTN, and it
returns CTN exactly when the uppercased input contains one of the
substrings CTN, CARTON, CARTONS (null maps to NON-CTN). -/
theorem claim_C9_packaging_total_binary (name : Option (List Char)) :
    (detect_packaging_type name = "CTN".data ∨
      detect_packaging_type name = "NON-CTN".data) ∧
    (detect_packaging_type name = "CTN".data ↔
      ∃ s, name = some s ∧
        (hasInfixB "CTN".data (upperChars s) ||
          hasInfixB "CARTON".data (upperChars s) ||
          hasInfixB "CARTONS".data (upperChars s)) = true) := by
  match name with
  | none =>
    refine ⟨Or.inr rfl, ?_, ?_⟩
    · intro h; exact absurd h (by decide)
    · rintro ⟨s, hs, -⟩; cases hs
  | some s =>
    have key : ∀ k : List Char, k ≠ [] → (∀ c ∈ k, pyWs c = false) →
        hasInfixB k (upperChars (pyStrip s)) = hasInfixB k (upperChars s) := by
      intro k hk hkw
      rw [upperChars_pyStrip, hasInfixB_pyStrip k hk hkw]
    have e1 := key "CTN".data (by decide) (by decide)
    have e2 := key "CARTON".data (by decide) (by decide)
    have e3 := key "CARTONS".data (by decide) (by decide)
    have hd : detect_packaging_type (some s) =
        (if (hasInfixB "CTN".data (upperChars s) ||
            hasInfixB "CARTON".data (upperChars s) ||
            hasInfixB "CARTONS".data (upperChars s)) = true
         then "CTN".data else "NON-CTN".data) := by
      simp only [detect_packaging_type]
      rw [e1, e2, e3]
    rw [hd]
    by_cases h : (hasInfixB "CTN".data (upperChars s) ||
        hasInfixB "CARTON".data (upperChars s) ||
        hasInfixB "CARTONS".data (upperChars s)) = true
    · rw [if_pos h]
      exact ⟨Or.inl rfl, fun _ => ⟨s, rfl, h⟩, fun _ => rfl⟩
    · rw [if_neg h]
      refine ⟨Or.inr rfl, fun hc => absurd hc (by decide), ?_⟩
      rintro ⟨s', hs', hc⟩
      cases hs'
      exact absurd hc h

/-! ### Units-per-carton extraction (`extract_units_per_carton`, Merging_code.py 156-217)

Each regex of the cascade is modelled by a scanner that tries the pattern
at every position from the left (`re.search` / `re.findall` semantics).
At a fixed position the concrete patterns are deterministic except for
their alternations: a greedy `\d+`, `[\d\.]+` or `\s*` is always followed
by an element that cannot match a digit/dot resp. whitespace, so
backtracking into it cannot succeed and `takeWhile`/`dropWhile` is exact;
the alternations (`PCS|PC|PS`, the optional unit group, the unit lists)
are tried in the pattern's order, each with its trailing context. -/

/-- Trailing `\b` after a word character: succeeds at end of input or
before a non-word character. -/
def wordBoundaryAfter (l : List Char) : Bool :=
  match l with
  | [] => true
  | c :: _ => !isWordCh c

/-- Alternation of literal tokens, each followed by `\b`; true when some
alternative (in order) matches — the captures of the enclosing patterns
do not depend on which alternative fires. -/
def altTokB (r : List Char) : List (List Char) → Bool
  | [] => false
  | tok :: rest =>
    (match dropPre tok r with
     | some r2 => wordBoundaryAfter r2
     | none => false) || altTokB r rest

/-- Alternation of literal tokens with no trailing context (end of the
pattern): true when some alternative prefix-matches. -/
def altTok (r : List Char) : List (List Char) → Bool
  | [] => false
  | tok :: rest =>
    (match dropPre tok r with
     | some _ => true
     | none => false) || altTok r rest

/-- Case 1 pattern `(\d+)\s*(PCS|PC|PS)\b` at one position. -/
def case1At (l : List Char) : Option ℕ :=
  let ds := takeDigits l
  if ds = [] then none
  else if altTokB (skipWs (afterDigits l)) ["PCS".data, "PC".data, "PS".data]
  then some (digitsVal ds) else none

def searchCase1 : List Char → Option ℕ
  | [] => none
  | c :: t => (case1At (c :: t)).orElse (fun _ => searchCase1 t)

/-- Characters matched by `[\d\.]`. -/
def digitDot (c : Char) : Bool := isDigitCh c || c = '.'

/-- Multiplication symbols `[*×X]`. -/
def isStarX (c : Char) : Bool := c = '*' || c = '×' || c = 'X'

/-- Tail of the case 2 pattern after the optional unit:
`\s*[*×X]\s*(\d+)\s*\)` (the argument starts before the second `\s*`). -/
def case2Tail (r : List Char) : Option ℕ :=
  match skipWs r with
  | c :: r3 =>
    if isStarX c then
      let r4 := skipWs r3
      let ds := takeDigits r4
      if ds = [] then none
      else
        match skipWs (afterDigits r4) with
        | c2 :: _ => if c2 = ')' then some (digitsVal ds) else none
        | [] => none
    else none
  | [] => none

/-- Case 2 pattern `\(\s*[\d\.]+\s*(?:ML|L|G|KG)?\s*[*×X]\s*(\d+)\s*\)`
at one position; the optional unit group's alternatives are tried in
order, then the empty alternative. -/
def case2At (l : List Char) : Option ℕ :=
  match l with
  | c :: t =>
    if c = '(' then
      let r1 := skipWs t
      let dd := r1.takeWhile digitDot
      if dd = [] then none
      else
        let r2 := skipWs (r1.dropWhile digitDot)
        let tryU := fun (u : List Char) =>
          match dropPre u r2 with
          | some ru => case2Tail ru
          | none => none
        ((((tryU "ML".data).orElse (fun _ => tryU "L".data)).orElse
          (fun _ => tryU "G".data)).orElse (fun _ => tryU "KG".data)).orElse
          (fun _ => case2Tail r2)
    else none
  | [] => none

def searchCase2 : List Char → Option ℕ
  | [] => none
  | c :: t => (case2At (c :: t)).orElse (fun _ => searchCase2 t)

/-- Case 3 pattern `(\d+)\s*[*×X]\s*[\d\.]+\s*(?:ML|L|LTR|G|KG|MIL|OZ)`
at one position. -/
def case3At (l : List Char) : Option ℕ :=
  let ds := takeDigits l
  if ds = [] then none
  else
    match skipWs (afterDigits l) with
    | c :: r1 =>
      if isStarX c then
        let r2 := skipWs r1
        let dd := r2.takeWhile digitDot
        if dd = [] then none
        else if altTok (skipWs (r2.dropWhile digitDot))
            ["ML".data, "L".data, "LTR".data, "G".data, "KG".data, "MIL".data, "OZ".data]
        then some (digitsVal ds) else none
      else none
    | [] => none

def searchCase3 : List Char → Option ℕ
  | [] => none
  | c :: t => (case3At (c :: t)).orElse (fun _ => searchCase3 t)

/-- One match of the case 4 `findall` pattern `(\d+)\s*[X×]\s*(?=\d+)`:
returns the capture and the remainder after the consumed text (the
lookahead consumes nothing). -/
def case4At (l : List Char) : Option (ℕ × List Char) :=
  let ds := takeDigits l
  if ds = [] then none
  else
    match skipWs (afterDigits l) with
    | c :: r1 =>
      if c = 'X' || c = '×' then
        let r2 := skipWs r1
        match r2 with
        | d :: _ => if isDigitCh d then some (digitsVal ds, r2) else none
        | [] => none
      else none
    | [] => none

/-- Left-to-right non-overlapping scan of `re.findall`; the fuel is the
input length, which bounds the number of steps since every step consumes
at least one character. -/
def case4ScanAux : ℕ → List Char → List ℕ
  | 0, _ => []
  | _ + 1, [] => []
  | fuel + 1, c :: t =>
    match case4At (c :: t) with
    | some (n, rest) => n :: case4ScanAux fuel rest
    | none => case4ScanAux fuel t

def case4Scan (l : List Char) : List ℕ := case4ScanAux l.length l

/-- Case 5 pattern `\b(\d+)\s*[X×]\s*\d*\s*(?:KG|G|GM|L|ML)\b` at one
position (the leading `\b` is checked by the caller). -/
def case5At (l : List Char) : Option ℕ :=
  let ds := takeDigits l
  if ds = [] then none
  else
    match skipWs (afterDigits l) with
    | c :: r1 =>
      if c = 'X' || c = '×' then
        let r2 := skipWs r1
        if altTokB (skipWs (afterDigits r2))
            ["KG".data, "G".data, "GM".data, "L".data, "ML".data]
        then some (digitsVal ds) else none
      else none
    | [] => none

/-- Scan for patterns starting with `\b(\d+)`: a position qualifies when
the previous character (tracked in the first argument) is absent or not a
word character. -/
def searchCase5 : Option Char → List Char → Option ℕ
  | _, [] => none
  | prev, c :: t =>
    (if (match prev with | none => true | some p => !isWordCh p)
     then case5At (c :: t) else none).orElse (fun _ => searchCase5 (some c) t)

/-- Case 6 pattern `\b(\d+)\s*(BAG|BAGS|TEABAG|TEABAGS|TEA BAGS|STICKS)\b`
at one position (the leading `\b` is checked by the caller). -/
def case6At (l : List Char) : Option ℕ :=
  let ds := takeDigits l
  if ds = [] then none
  else if altTokB (skipWs (afterDigits l))
      ["BAG".data, "BAGS".data, "TEABAG".data, "TEABAGS".data,
        "TEA BAGS".data, "STICKS".data]
  then some (digitsVal ds) else none

def searchCase6 : Option Char → List Char → Option ℕ
  | _, [] => none
  | prev, c :: t =>
    (if (match prev with | none => true | some p => !isWordCh p)
     then case6At (c :: t) else none).orElse (fun _ => searchCase6 (some c) t)

/-- Case 7 pattern `(\d+)\s*\+\s*(\d+)` at one position; the value is the
sum of the two captures. -/
def case7At (l : List Char) : Option ℕ :=
  let ds := takeDigits l
  if ds = [] then none
  else
    match skipWs (afterDigits l) with
    | c :: r1 =>
      if c = '+' then
        let ds2 := takeDigits (skipWs r1)
        if ds2 = [] then none else some (digitsVal ds + digitsVal ds2)
      else none
    | [] => none

def searchCase7 : List Char → Option ℕ
  | [] => none
  | c :: t => (case7At (c :: t)).orElse (fun _ => searchCase7 t)

/-- Case 8 pattern `[*×X]\s*(\d+)` at one position. -/
def case8At (l : List Char) : Option ℕ :=
  match l with
  | c :: t =>
    if isStarX c then
      let ds := takeDigits (skipWs t)
      if ds = [] then none else some (digitsVal ds)
    else none
  | [] => none

def searchCase8 : List Char → Option ℕ
  | [] => none
  | c :: t => (case8At (c :: t)).orElse (fun _ => searchCase8 t)

/-- Model of `int(np.prod(nums))` for a list of Python non-negative ints.
NumPy materialises the list as an array whose dtype is int64 when every
value fits, else uint64 when every value fits, else object (arbitrary
precision); products in the two fixed-width dtypes wrap around. -/
def npProdZ (l : List ℕ) : ℤ :=
  if l.all (fun n => n < 2 ^ 63) then
    ((l.prod : ℤ) + 2 ^ 63) % 2 ^ 64 - 2 ^ 63
  else if l.all (fun n => n < 2 ^ 64) then (l.prod : ℤ) % 2 ^ 64
  else (l.prod : ℤ)

/-- The recognizer cascade on the normalized (uppercased, stripped) name:
first match wins; case 4's `findall` result decides between the product
rule (two or more captures), the single-capture rule, and falling through
to cases 5-8. -/
def eucCascade (n : List Char) : Option ℤ :=
  match searchCase1 n with
  | some k => some (k : ℤ)
  | none =>
    match searchCase2 n with
    | some k => some (k : ℤ)
    | none =>
      match searchCase3 n with
      | some k => some (k : ℤ)
      | none =>
        match case4Scan n with
        | [k] => some (k : ℤ)
        | k1 :: k2 :: ks => some (npProdZ (k1 :: k2 :: ks))
        | [] =>
          match searchCase5 none n with
          | some k => some (k : ℤ)
          | none =>
            match searchCase6 none n with
            | some k => some (k : ℤ)
            | none =>
              match searchCase7 n with
              | some k => some (k : ℤ)
              | none =>
                match searchCase8 n with
                | some k => some (k : ℤ)
                | none => none

/-- Model of `extract_units_per_carton`: `none` input stands for `NaN` or
a non-string value; the name is uppercased and stripped, then the cascade
runs. -/
def extract_units_per_carton (name : Option (List Char)) : Option ℤ :=
  match name with
  | none => none
  | some s => eucCascade (pyStrip (upperChars s))

example : extract_units_per_carton (some "4 X 18 X 56G".data) = some 18 := by decide
example : extract_units_per_carton (some "96PCS".data) = some 96 := by decide
example : extract_units_per_carton (some "12PC".data) = some 12 := by decide
example : extract_units_per_carton (some "(1.5 ML*12)".data) = some 12 := by decide
example : extract_units_per_carton (some "36+6".data) = some 42 := by decide
example : extract_units_per_carton (some "24X500 ML CTN".data) = some 24 := by decide
example : extract_units_per_carton (some "6*2.5L FAMILY CTN".data) = some 6 := by decide
example : extract_units_per_carton (some "7 UP 150 ML X 30".data) = some 30 := by decide
example : extract_units_per_carton (some "100 TEABAGS".data) = some 100 := by decide
example : extract_units_per_carton (some "plain text no numbers".data) = none := by decide
example : extract_units_per_carton (some "0PCS".data) = some 0 := by decide
example : extract_units_per_carton (some "2 X 3 X 4".data) = some 6 := by decide
example : extract_units_per_carton (some "4 X 18 X 56".data) = some 72 := by decide
example : extract_units_per_carton (some "10 X 20".data) = some 10 := by decide
example : extract_units_per_carton (some "A10 5PCS".data) = some 5 := by decide
example : extract_units_per_carton (some "(2LTR*6)".data) = some 6 := by decide
example : extract_units_per_carton (some "5PCSX".data) = none := by decide
example : extract_units_per_carton (some "1X2X3".data) = some 2 := by decide

/-! ### Weight/quantity extraction (`extract_weight_quantity`, Merging_code.py 93-136)

Pattern:
`(\d+(?:\.\d+)?)\s*(KG|KGS|G|GM|GR|GRAM|GRAMS|L|LTR|LITRE|ML|M L|LT)(?=[\s\*×X0-9\W]|$)`.
The unit alternatives are tried in the pattern's order, each checked
against the lookahead; when the optional fractional part is present but
no unit alternative succeeds after it, the regex backtracks to the empty
option for the group (which can only succeed if no fraction was
consumable, but the backtracking step is modelled faithfully). -/

/-- The lookahead `(?=[\s\*×X0-9\W]|$)`: end of input, whitespace, one of
`* × X`, a digit, or any non-word character. -/
def lookaheadOkW (l : List Char) : Bool :=
  match l with
  | [] => true
  | c :: _ => pyWs c || isStarX c || isDigitCh c || !isWordCh c

/-- First unit alternative (in the pattern's order) that prefix-matches
with a succeeding lookahead; returns the matched unit token. -/
def findUnitW (r : List Char) : List (List Char) → Option (List Char)
  | [] => none
  | u :: us =>
    match dropPre u r with
    | some rest => if lookaheadOkW rest then some u else findUnitW r us
    | none => findUnitW r us

/-- The unit alternation of the weight pattern, in order. -/
def weightUnits : List (List Char) :=
  ["KG".data, "KGS".data, "G".data, "GM".data, "GR".data, "GRAM".data,
    "GRAMS".data, "L".data, "LTR".data, "LITRE".data, "ML".data,
    "M L".data, "LT".data]

/-- The weight pattern at one position: returns the captured number text
(group 1) and the matched unit (group 2). -/
def weightAt (l : List Char) : Option (List Char × List Char) :=
  let ip := takeDigits l
  if ip = [] then none
  else
    let r0 := afterDigits l
    let withFrac : Option (List Char × List Char) :=
      match r0 with
      | c :: r1 =>
        if c = '.' then
          let fp := takeDigits r1
          if fp = [] then none
          else
            match findUnitW (skipWs (afterDigits r1)) weightUnits with
            | some u => some (ip ++ '.' :: fp, u)
            | none => none
        else none
      | [] => none
    match withFrac with
    | some res => some res
    | none =>
      match findUnitW (skipWs r0) weightUnits with
      | some u => some (ip, u)
      | none => none

def weightSearch : List Char → Option (List Char × List Char)
  | [] => none
  | c :: t => (weightAt (c :: t)).orElse (fun _ => weightSearch t)

/-- Exact value of the captured numeric literal (`float(match.group(1))`);
the captures have the shape `\d+` or `\d+.\d+`. -/
def parseDecQ (numS : List Char) : ℚ :=
  let ip := takeDigits numS
  match afterDigits numS with
  | '.' :: fp => (digitsVal ip : ℚ) + (digitsVal fp : ℚ) / 10 ^ fp.length
  | _ => (digitsVal ip : ℚ)

/-- Model of `extract_weight_quantity`: find the first number+unit token,
convert to grams (KG/KGS and L/LTR/LITRE ×1000, gram and millilitre
units ×1, anything else ×1), round and render as `"<n>G"`. -/
def extract_weight_quantity (name : Option (List Char)) : Option (List Char) :=
  match name with
  | none => none
  | some s =>
    match weightSearch (pyStrip (upperChars s)) with
    | none => none
    | some (numS, u) =>
      let value := parseDecQ numS
      let grams : ℚ :=
        if u = "KG".data ∨ u = "KGS".data then value * 1000
        else if u = "G".data ∨ u = "GM".data ∨ u = "GR".data ∨
            u = "GRAM".data ∨ u = "GRAMS".data then value
        else if u = "L".data ∨ u = "LTR".data ∨ u = "LITRE".data then value * 1000
        else if u = "ML".data ∨ u = "M L".data then value * 1
        else value
      some (intRepr (pyRoundHalfEvenQ grams) ++ ['G'])

example : weightSearch (pyStrip (upperChars "2.5KG".data)) =
    some ("2.5".data, "KG".data) := by decide
example : weightSearch (pyStrip (upperChars "2.5KGS".data)) =
    some ("2.5".data, "KGS".data) := by decide
example : weightSearch (pyStrip (upperChars "340GX24".data)) =
    some ("340".data, "G".data) := by decide
example : weightSearch (pyStrip (upperChars "500 ML".data)) =
    some ("500".data, "ML".data) := by decide
example : weightSearch (pyStrip (upperChars "15.9KG1".data)) =
    some ("15.9".data, "KG".data) := by decide
example : weightSearch (pyStrip (upperChars "no weight here".data)) = none := by decide

/-- Claim C1 (code bug): on the input "4 X 18 X 56G" the extractor
returns 18, not the documented 72.  The case 3 recognizer
(`(\d+)\s*[*×X]\s*[\d\.]+\s*(?:ML|L|LTR|G|KG|MIL|OZ)`) matches the
substring "18 X 56G" — "56G" serves as its quantity+unit — so the
chained-multiplication recognizer of case 4 never runs. -/
theorem claim_C1_failing_input_value :
    extract_units_per_carton (some "4 X 18 X 56G".data) = some 18 ∧
    searchCase3 (pyStrip (upperChars "4 X 18 X 56G".data)) = some 18 ∧
    (18 : ℤ) ≠ 72 := by decide

/-! Support lemmas for the weight theorem: computing the scanners on a
string of the shape `<digits>[.<digits>]<unit>`. -/

theorem takeWhile_app (p : Char → Bool) (l r : List Char)
    (hl : ∀ c ∈ l, p c = true) (hr : ∀ c cs, r = c :: cs → p c = false) :
    List.takeWhile p (l ++ r) = l ∧ List.dropWhile p (l ++ r) = r := by
  induction l with
  | nil =>
    simp only [List.nil_append]
    match r with
    | [] => exact ⟨rfl, rfl⟩
    | c :: cs =>
      rw [List.takeWhile_cons, List.dropWhile_cons, hr c cs rfl]
      exact ⟨rfl, rfl⟩
  | cons a l' ih =>
    have ha : p a = true := hl a (by simp)
    obtain ⟨ih1, ih2⟩ := ih (fun c hc => hl c (by simp [hc]))
    rw [List.cons_append, List.takeWhile_cons, List.dropWhile_cons, ha]
    simp only [if_true]
    exact ⟨by rw [ih1], by rw [ih2]⟩

theorem mapSelf (f : Char → Char) (l : List Char) (h : ∀ c ∈ l, f c = c) :
    l.map f = l := by
  induction l with
  | nil => rfl
  | cons c t ih => rw [List.map_cons, h c (by simp), ih (fun x hx => h x (by simp [hx]))]

theorem toUpper_eq_self_of_digit (c : Char) (h : isDigitCh c = true) :
    Char.toUpper c = c := by
  simp only [isDigitCh] at h
  rw [Bool.and_eq_true, decide_eq_true_eq, decide_eq_true_eq] at h
  simp only [Char.toUpper]
  rw [if_neg]
  intro hc
  omega

theorem pyWs_eq_false_of_digit (c : Char) (h : isDigitCh c = true) :
    pyWs c = false := by
  by_cases hw : pyWs c = true
  · simp only [pyWs, Bool.or_eq_true, decide_eq_true_eq] at hw
    rcases hw with ((((h1 | h1) | h1) | h1) | h1) | h1 <;>
      (subst h1; exact absurd h (by decide))
  · rwa [Bool.not_eq_true] at hw

theorem isDigitCh_false_of_ws (c : Char) (h : pyWs c = true) :
    isDigitCh c = false := by
  by_cases hd : isDigitCh c = true
  · rw [pyWs_eq_false_of_digit c hd] at h; cases h
  · rwa [Bool.not_eq_true] at hd

theorem stripStart_of_head (c : Char) (t : List Char) (h : pyWs c = false) :
    stripStart (c :: t) = c :: t := by
  simp [stripStart, List.dropWhile_cons, h]

theorem stripEnd_append_last (l : List Char) (c : Char) (h : pyWs c = false) :
    stripEnd (l ++ [c]) = l ++ [c] := by
  induction l with
  | nil =>
    rw [List.nil_append, stripEnd_cons]
    rw [if_neg (by simp [h])]
    rfl
  | cons a t ih =>
    rw [List.cons_append, stripEnd_cons, ih]
    rw [if_neg (by simp)]

/-- Rendering of the optional fractional part of a decimal literal. -/
def fracR (fp : Option (List Char)) : List Char :=
  match fp with
  | none => []
  | some l => '.' :: l

/-- Text of a decimal literal `\d+(\.\d+)?` with integer part `ip` and
optional fractional part `fp`. -/
def numRender (ip : List Char) (fp : Option (List Char)) : List Char := ip ++ fracR fp

theorem weightAt_token (ip : List Char) (fp : Option (List Char)) (u : List Char)
    (hip : ip ≠ []) (hipd : ∀ c ∈ ip, isDigitCh c = true)
    (hfp : ∀ l, fp = some l → l ≠ [] ∧ ∀ c ∈ l, isDigitCh c = true)
    (hu : u = "KG".data ∨ u = "KGS".data) :
    weightAt (numRender ip fp ++ u) = some (numRender ip fp, u) := by
  have huK : ∀ c cs, u = c :: cs → isDigitCh c = false := by
    rcases hu with h | h <;> subst h <;> (intro c cs hc; cases hc; decide)
  have huW : skipWs u = u := by
    rcases hu with h | h <;> subst h <;> decide
  have huF : findUnitW u weightUnits = some u := by
    rcases hu with h | h <;> subst h <;> decide
  match fp with
  | some l =>
    obtain ⟨hl, hld⟩ := hfp l rfl
    have hsplit : numRender ip (some l) ++ u = ip ++ ('.' :: (l ++ u)) := by
      simp [numRender, fracR]
    rw [hsplit]
    have hTD := takeWhile_app isDigitCh ip ('.' :: (l ++ u)) hipd
      (fun c cs hc => by cases hc; decide)
    have hTD2 := takeWhile_app isDigitCh l u hld huK
    simp only [weightAt, takeDigits, afterDigits, hTD.1, hTD.2, hTD2.1, hTD2.2]
    rw [if_neg hip, if_true, if_neg hl, huW, huF]
    simp [numRender, fracR]
  | none =>
    obtain ⟨c0, cs0, hcons, hdot⟩ : ∃ c0 cs0, u = c0 :: cs0 ∧ c0 ≠ '.' := by
      rcases hu with h | h <;> subst h
      · exact ⟨'K', "G".data, rfl, by decide⟩
      · exact ⟨'K', "GS".data, rfl, by decide⟩
    have hsplit : numRender ip none ++ u = ip ++ u := by simp [numRender, fracR]
    rw [hsplit]
    have hTD := takeWhile_app isDigitCh ip u hipd huK
    simp only [weightAt, takeDigits, afterDigits]
    rw [hTD.1, hTD.2, if_neg hip]
    rw [hcons] at huW huF ⊢
    simp only []
    rw [if_neg hdot, huW, huF]
    simp [numRender, fracR, hcons]

/-- Claim C5 (amended): a numeric literal with a KG/KGS unit normalizes to
`round(n*1000)` grams rendered as `"<g>G"`, where `round` is Python's
round-half-to-even (banker's rounding) on the exact value — not
round-half-away-from-zero as the specification states. -/
theorem claim_C5_kg_normalization (ip : List Char) (fp : Option (List Char))
    (u : List Char) (hip : ip ≠ []) (hipd : ∀ c ∈ ip, isDigitCh c = true)
    (hfp : ∀ l, fp = some l → l ≠ [] ∧ ∀ c ∈ l, isDigitCh c = true)
    (hu : u = "KG".data ∨ u = "KGS".data) :
    extract_weight_quantity (some (numRender ip fp ++ u)) =
      some (intRepr (pyRoundHalfEvenQ (parseDecQ (numRender ip fp) * 1000)) ++ ['G']) := by
  obtain ⟨a, ip0, rfl⟩ := List.exists_cons_of_ne_nil hip
  have haD : isDigitCh a = true := hipd a (by simp)
  have hupper : upperChars (numRender (a :: ip0) fp ++ u) = numRender (a :: ip0) fp ++ u := by
    apply mapSelf
    intro c hc
    rw [List.mem_append] at hc
    rcases hc with hc | hc
    · simp only [numRender, List.mem_append] at hc
      rcases hc with hc | hc
      · exact toUpper_eq_self_of_digit c (hipd c hc)
      · match fp, hc with
        | some l, hc =>
          obtain ⟨-, hld⟩ := hfp l rfl
          rcases List.mem_cons.mp hc with hc | hc
          · rw [hc]; decide
          · exact toUpper_eq_self_of_digit c (hld c hc)
    · rcases hu with h | h <;> subst h
      · exact (by decide : ∀ x ∈ "KG".data, Char.toUpper x = x) c hc
      · exact (by decide : ∀ x ∈ "KGS".data, Char.toUpper x = x) c hc
  have hstrip : pyStrip (numRender (a :: ip0) fp ++ u) = numRender (a :: ip0) fp ++ u := by
    have hhead : numRender (a :: ip0) fp ++ u = a :: (ip0 ++ fracR fp ++ u) := by
      simp [numRender]
    have hlast : ∃ init lc, numRender (a :: ip0) fp ++ u = init ++ [lc] ∧ pyWs lc = false := by
      rcases hu with h | h <;> subst h
      · exact ⟨numRender (a :: ip0) fp ++ ['K'], 'G',
          by simp [show ("KG".data : List Char) = ['K', 'G'] from rfl], by decide⟩
      · exact ⟨numRender (a :: ip0) fp ++ ['K', 'G'], 'S',
          by simp [show ("KGS".data : List Char) = ['K', 'G', 'S'] from rfl], by decide⟩
    unfold pyStrip
    rw [hhead, stripStart_of_head a _ (pyWs_eq_false_of_digit a haD), ← hhead]
    obtain ⟨init, lc, heq, hlc⟩ := hlast
    rw [heq, stripEnd_append_last init lc hlc]
  have hsearch : weightSearch (numRender (a :: ip0) fp ++ u) =
      some (numRender (a :: ip0) fp, u) := by
    have hW := weightAt_token (a :: ip0) fp u hip hipd hfp hu
    have hcons2 : numRender (a :: ip0) fp ++ u = a :: (ip0 ++ fracR fp ++ u) := by
      simp [numRender]
    rw [hcons2] at hW ⊢
    show (weightAt (a :: (ip0 ++ fracR fp ++ u))).orElse _ = _
    rw [hW]
    rfl
  have hparse : parseDecQ (numRender (a :: ip0) fp) = parseDecQ (numRender (a :: ip0) fp) := rfl
  show (match weightSearch (pyStrip (upperChars (numRender (a :: ip0) fp ++ u))) with
    | none => none
    | some (numS, u2) =>
      let value := parseDecQ numS
      let grams : ℚ :=
        if u2 = "KG".data ∨ u2 = "KGS".data then value * 1000
        else if u2 = "G".data ∨ u2 = "GM".data ∨ u2 = "GR".data ∨
            u2 = "GRAM".data ∨ u2 = "GRAMS".data then value
        else if u2 = "L".data ∨ u2 = "LTR".data ∨ u2 = "LITRE".data then value * 1000
        else if u2 = "ML".data ∨ u2 = "M L".data then value * 1
        else value
      some (intRepr (pyRoundHalfEvenQ grams) ++ ['G'])) = _
  rw [hupper, hstrip, hsearch]
  simp only []
  rw [if_pos hu]

/-- Claim C5 counterexample: the specification's round-half-away-from-zero
rule predicts "0.0025KG" → "3G" (0.0025·1000 = 2.5 rounds away to 3), but
the code's `round` is Python's banker's rounding and yields "2G". -/
theorem claim_C5_counterexample :
    extract_weight_quantity (some "0.0025KG".data) = some "2G".data ∧
    intRepr (roundHalfAwayQ (parseDecQ "0.0025".data * 1000)) ++ ['G'] = "3G".data ∧
    ("2G".data : List Char) ≠ "3G".data := by
  have hparse : parseDecQ "0.0025".data = 1 / 400 := by
    have h1 : takeDigits "0.0025".data = ['0'] := by decide
    have h2 : afterDigits "0.0025".data = '.' :: "0025".data := by decide
    simp only [parseDecQ, h1, h2]
    have h3 : digitsVal ['0'] = 0 := by decide
    have h4 : digitsVal "0025".data = 25 := by decide
    have h5 : ("0025".data : List Char).length = 4 := by decide
    rw [h3, h4, h5]
    norm_num
  refine ⟨?_, ?_, by decide⟩
  · have h0 := claim_C5_kg_normalization "0".data (some "0025".data) "KG".data
      (by decide) (by decide)
      (fun l hl => by cases hl; exact ⟨by decide, by decide⟩) (Or.inl rfl)
    have harg : numRender "0".data (some "0025".data) ++ "KG".data = "0.0025KG".data := by
      decide
    have hnum : numRender "0".data (some "0025".data) = "0.0025".data := by decide
    rw [harg, hnum] at h0
    rw [h0, hparse]
    have hval : pyRoundHalfEvenQ (1 / 400 * 1000) = 2 := by
      simp only [pyRoundHalfEvenQ]
      norm_num
    rw [hval]
    decide
  · rw [hparse]
    have hval : roundHalfAwayQ (1 / 400 * 1000) = 3 := by
      simp only [roundHalfAwayQ]
      norm_num
    rw [hval]
    decide

/-- Claim C5 witness: the amended theorem at the specification's own
example, "2.5KG" → "2500G". -/
theorem claim_C5_witness :
    extract_weight_quantity (some "2.5KG".data) = some "2500G".data := by
  have h0 := claim_C5_kg_normalization "2".data (some "5".data) "KG".data
    (by decide) (by decide)
    (fun l hl => by cases hl; exact ⟨by decide, by decide⟩) (Or.inl rfl)
  have harg : numRender "2".data (some "5".data) ++ "KG".data = "2.5KG".data := by decide
  have hnum : numRender "2".data (some "5".data) = "2.5".data := by decide
  rw [harg, hnum] at h0
  rw [h0]
  have hparse : parseDecQ "2.5".data = 5 / 2 := by
    have h1 : takeDigits "2.5".data = ['2'] := by decide
    have h2 : afterDigits "2.5".data = '.' :: "5".data := by decide
    simp only [parseDecQ, h1, h2]
    have h3 : digitsVal ['2'] = 2 := by decide
    have h4 : digitsVal "5".data = 5 := by decide
    have h5 : ("5".data : List Char).length = 1 := by decide
    rw [h3, h4, h5]
    norm_num
  rw [hparse]
  have hval : pyRoundHalfEvenQ (5 / 2 * 1000) = 2500 := by
    simp only [pyRoundHalfEvenQ]
    norm_num
  rw [hval]
  decide

/-! ### Claim C7: range of `extract_units_per_carton`

Every capture of the cascade is the value of a digit substring of the
normalized input; when the input contains no `'0'` digit such values are
positive, and when additionally a chained-multiplication product stays
below `2^63` no NumPy wrap-around occurs, so the overall result is
positive.  (The counterexample shows the unrestricted claim fails: `"0PCS"`
yields `0`.) -/

theorem digitsVal_foldl_pos (ds : List Char) (a : ℕ) (ha : 0 < a) :
    0 < ds.foldl (fun x c => 10 * x + (c.toNat - 48)) a := by
  induction ds generalizing a with
  | nil => exact ha
  | cons c t ih =>
    apply ih
    have h10 : 0 < 10 * a := by omega
    exact Nat.lt_of_lt_of_le h10 (Nat.le_add_right _ _)

theorem digitsVal_pos (ds : List Char) (hne : ds ≠ [])
    (hd : ∀ c ∈ ds, isDigitCh c = true) (h0 : ∀ c ∈ ds, c ≠ '0') :
    0 < digitsVal ds := by
  match ds, hne with
  | c :: t, _ =>
    have hdc : isDigitCh c = true := hd c (by simp)
    have h0c : c ≠ '0' := h0 c (by simp)
    simp only [isDigitCh, Bool.and_eq_true, decide_eq_true_eq] at hdc
    have hne48 : c.toNat ≠ 48 := by
      intro h
      exact h0c (by rw [← Char.ofNat_toNat c, h])
    show 0 < List.foldl _ (10 * 0 + (c.toNat - 48)) t
    apply digitsVal_foldl_pos
    omega

theorem takeDigits_subset (l : List Char) : takeDigits l ⊆ l :=
  (List.takeWhile_prefix _).subset

theorem afterDigits_subset (l : List Char) : afterDigits l ⊆ l :=
  (List.dropWhile_suffix _).subset

theorem skipWs_subset (l : List Char) : skipWs l ⊆ l :=
  (List.dropWhile_suffix _).subset

theorem dropPre_subset (tok : List Char) : ∀ r rest, dropPre tok r = some rest → rest ⊆ r := by
  induction tok with
  | nil =>
    intro r rest h
    cases h
    exact fun a ha => ha
  | cons a as ih =>
    intro r rest h
    match r with
    | [] => cases h
    | b :: bs =>
      simp only [dropPre] at h
      by_cases hab : a = b
      · rw [if_pos hab] at h
        exact fun x hx => List.mem_cons_of_mem b (ih bs rest h hx)
      · rw [if_neg hab] at h
        cases h

/-- A capture `takeWhile isDigitCh r` with `r` drawn from a zero-free
string has positive value. -/
theorem captureVal_pos (r l : List Char) (hsub : r ⊆ l)
    (hne : takeDigits r ≠ []) (h0 : ∀ c ∈ l, c ≠ '0') :
    0 < digitsVal (takeDigits r) := by
  apply digitsVal_pos _ hne
  · exact fun c hc => List.mem_takeWhile_imp hc
  · exact fun c hc => h0 c (hsub (takeDigits_subset r hc))

theorem orElse_sound {α : Type} (a : Option α) (f : Unit → Option α) (n : α)
    (h : a.orElse f = some n) : a = some n ∨ f () = some n := by
  match a with
  | some x => exact Or.inl h
  | none => exact Or.inr h

theorem case1At_pos (s l : List Char) (n : ℕ) (hsub : l ⊆ s)
    (h0 : ∀ c ∈ s, c ≠ '0') (h : case1At l = some n) : 0 < n := by
  simp only [case1At] at h
  by_cases hds : takeDigits l = []
  · rw [if_pos hds] at h; exact Option.noConfusion h
  · rw [if_neg hds] at h
    by_cases halt : altTokB (skipWs (afterDigits l))
        ["PCS".data, "PC".data, "PS".data] = true
    · rw [if_pos halt] at h
      obtain rfl := Option.some.inj h
      exact captureVal_pos l s hsub hds h0
    · rw [if_neg halt] at h; exact Option.noConfusion h

theorem case2Tail_pos (s r : List Char) (n : ℕ) (hsub : r ⊆ s)
    (h0 : ∀ c ∈ s, c ≠ '0') (h : case2Tail r = some n) : 0 < n := by
  simp only [case2Tail] at h
  rcases hsw : skipWs r with _ | ⟨c, r3⟩ <;> rw [hsw] at h
  · exact Option.noConfusion h
  · simp only [] at h
    by_cases hst : isStarX c = true
    · rw [if_pos hst] at h
      by_cases hds : takeDigits (skipWs r3) = []
      · rw [if_pos hds] at h; exact Option.noConfusion h
      · rw [if_neg hds] at h
        have hsubr3 : skipWs r3 ⊆ s := by
          intro x hx
          apply hsub
          apply skipWs_subset r
          rw [hsw]
          exact List.mem_cons_of_mem c (skipWs_subset r3 hx)
        rcases hsw2 : skipWs (afterDigits (skipWs r3)) with _ | ⟨c2, rest2⟩ <;>
          rw [hsw2] at h
        · exact Option.noConfusion h
        · simp only [] at h
          by_cases hc2 : c2 = ')'
          · rw [if_pos hc2] at h
            obtain rfl := Option.some.inj h
            exact captureVal_pos (skipWs r3) s hsubr3 hds h0
          · rw [if_neg hc2] at h; exact Option.noConfusion h
    · rw [if_neg hst] at h; exact Option.noConfusion h

theorem case2At_pos (s l : List Char) (n : ℕ) (hsub : l ⊆ s)
    (h0 : ∀ c ∈ s, c ≠ '0') (h : case2At l = some n) : 0 < n := by
  rcases l with _ | ⟨c, t⟩
  · exact Option.noConfusion h
  · simp only [case2At] at h
    by_cases hc : c = '('
    · rw [if_pos hc] at h
      by_cases hdd : List.takeWhile digitDot (skipWs t) = []
      · rw [if_pos hdd] at h; exact Option.noConfusion h
      · rw [if_neg hdd] at h
        have hsubt : ∀ x ∈ skipWs (List.dropWhile digitDot (skipWs t)), x ∈ s := by
          intro x hx
          exact hsub (List.mem_cons_of_mem c (skipWs_subset t
            ((List.dropWhile_suffix digitDot).subset
              (skipWs_subset (List.dropWhile digitDot (skipWs t)) hx))))
        have htry : ∀ u m,
            (match dropPre u (skipWs (List.dropWhile digitDot (skipWs t))) with
              | some ru => case2Tail ru
              | none => none) = some m → 0 < m := by
          intro u m hm
          rcases hdp : dropPre u (skipWs (List.dropWhile digitDot (skipWs t)))
            with _ | ru <;> rw [hdp] at hm
          · exact Option.noConfusion hm
          · exact case2Tail_pos s ru m
              (fun x hx => hsubt x (dropPre_subset u _ ru hdp hx)) h0 hm
        rcases orElse_sound _ _ _ h with h4 | h4
        · rcases orElse_sound _ _ _ h4 with h3 | h3
          · rcases orElse_sound _ _ _ h3 with h2 | h2
            · rcases orElse_sound _ _ _ h2 with h1 | h1
              · exact htry _ _ h1
              · exact htry _ _ h1
            · exact htry _ _ h2
          · exact htry _ _ h3
        · exact case2Tail_pos s _ n hsubt h0 h4
    · rw [if_neg hc] at h; exact Option.noConfusion h

theorem case3At_pos (s l : List Char) (n : ℕ) (hsub : l ⊆ s)
    (h0 : ∀ c ∈ s, c ≠ '0') (h : case3At l = some n) : 0 < n := by
  simp only [case3At] at h
  by_cases hds : takeDigits l = []
  · rw [if_pos hds] at h; exact Option.noConfusion h
  · rw [if_neg hds] at h
    rcases hsw : skipWs (afterDigits l) with _ | ⟨c, r1⟩ <;> rw [hsw] at h
    · exact Option.noConfusion h
    · simp only [] at h
      by_cases hst : isStarX c = true
      · rw [if_pos hst] at h
        by_cases hdd : List.takeWhile digitDot (skipWs r1) = []
        · rw [if_pos hdd] at h; exact Option.noConfusion h
        · rw [if_neg hdd] at h
          by_cases halt : altTok (skipWs (List.dropWhile digitDot (skipWs r1)))
              ["ML".data, "L".data, "LTR".data, "G".data, "KG".data,
                "MIL".data, "OZ".data] = true
          · rw [if_pos halt] at h
            obtain rfl := Option.some.inj h
            exact captureVal_pos l s hsub hds h0
          · rw [if_neg halt] at h; exact Option.noConfusion h
      · rw [if_neg hst] at h; exact Option.noConfusion h

theorem case4At_pos_rest (s l : List Char) (n : ℕ) (rest : List Char) (hsub : l ⊆ s)
    (h0 : ∀ c ∈ s, c ≠ '0') (h : case4At l = some (n, rest)) :
    0 < n ∧ rest ⊆ l := by
  simp only [case4At] at h
  by_cases hds : takeDigits l = []
  · rw [if_pos hds] at h; exact Option.noConfusion h
  · rw [if_neg hds] at h
    rcases hsw : skipWs (afterDigits l) with _ | ⟨c, r1⟩ <;> rw [hsw] at h
    · exact Option.noConfusion h
    · simp only [] at h
      by_cases hx : (c = 'X' || c = '×') = true
      · rw [if_pos hx] at h
        rcases hsw2 : skipWs r1 with _ | ⟨d, r2⟩ <;> rw [hsw2] at h
        · exact Option.noConfusion h
        · simp only [] at h
          by_cases hd : isDigitCh d = true
          · rw [if_pos hd] at h
            obtain ⟨rfl, rfl⟩ := Prod.mk.injEq .. ▸ Option.some.inj h
            refine ⟨captureVal_pos l s hsub hds h0, ?_⟩
            intro x hx2
            have : x ∈ skipWs r1 := by rw [hsw2]; exact hx2
            have : x ∈ r1 := skipWs_subset r1 this
            have : x ∈ skipWs (afterDigits l) := by
              rw [hsw]; exact List.mem_cons_of_mem c this
            exact afterDigits_subset l (skipWs_subset (afterDigits l) this)
          · rw [if_neg hd] at h; exact Option.noConfusion h
      · rw [if_neg hx] at h; exact Option.noConfusion h

theorem case4ScanAux_pos (s : List Char) (h0 : ∀ c ∈ s, c ≠ '0') :
    ∀ fuel l, l ⊆ s → ∀ v ∈ case4ScanAux fuel l, 0 < v := by
  intro fuel
  induction fuel with
  | zero => intro l _ v hv; cases hv
  | succ f ih =>
    intro l hsub v hv
    match l with
    | [] => cases hv
    | c :: t =>
      simp only [case4ScanAux] at hv
      rcases h4 : case4At (c :: t) with _ | ⟨m, rest⟩ <;> rw [h4] at hv
      · exact ih t (fun x hx => hsub (List.mem_cons_of_mem c hx)) v hv
      · obtain ⟨hm, hrest⟩ := case4At_pos_rest s (c :: t) m rest hsub h0 h4
        rcases List.mem_cons.mp hv with rfl | hv
        · exact hm
        · exact ih rest (fun x hx => hsub (hrest hx)) v hv

theorem case4Scan_pos (s l : List Char) (hsub : l ⊆ s)
    (h0 : ∀ c ∈ s, c ≠ '0') : ∀ v ∈ case4Scan l, 0 < v :=
  case4ScanAux_pos s h0 l.length l hsub

theorem case5At_pos (s l : List Char) (n : ℕ) (hsub : l ⊆ s)
    (h0 : ∀ c ∈ s, c ≠ '0') (h : case5At l = some n) : 0 < n := by
  simp only [case5At] at h
  by_cases hds : takeDigits l = []
  · rw [if_pos hds] at h; exact Option.noConfusion h
  · rw [if_neg hds] at h
    rcases hsw : skipWs (afterDigits l) with _ | ⟨c, r1⟩ <;> rw [hsw] at h
    · exact Option.noConfusion h
    · simp only [] at h
      by_cases hx : (c = 'X' || c = '×') = true
      · rw [if_pos hx] at h
        by_cases halt : altTokB (skipWs (afterDigits (skipWs r1)))
            ["KG".data, "G".data, "GM".data, "L".data, "ML".data] = true
        · rw [if_pos halt] at h
          obtain rfl := Option.some.inj h
          exact captureVal_pos l s hsub hds h0
        · rw [if_neg halt] at h; exact Option.noConfusion h
      · rw [if_neg hx] at h; exact Option.noConfusion h

theorem case6At_pos (s l : List Char) (n : ℕ) (hsub : l ⊆ s)
    (h0 : ∀ c ∈ s, c ≠ '0') (h : case6At l = some n) : 0 < n := by
  simp only [case6At] at h
  by_cases hds : takeDigits l = []
  · rw [if_pos hds] at h; exact Option.noConfusion h
  · rw [if_neg hds] at h
    by_cases halt : altTokB (skipWs (afterDigits l))
        ["BAG".data, "BAGS".data, "TEABAG".data, "TEABAGS".data,
          "TEA BAGS".data, "STICKS".data] = true
    · rw [if_pos halt] at h
      obtain rfl := Option.some.inj h
      exact captureVal_pos l s hsub hds h0
    · rw [if_neg halt] at h; exact Option.noConfusion h

theorem case7At_pos (s l : List Char) (n : ℕ) (hsub : l ⊆ s)
    (h0 : ∀ c ∈ s, c ≠ '0') (h : case7At l = some n) : 0 < n := by
  simp only [case7At] at h
  by_cases hds : takeDigits l = []
  · rw [if_pos hds] at h; exact Option.noConfusion h
  · rw [if_neg hds] at h
    rcases hsw : skipWs (afterDigits l) with _ | ⟨c, r1⟩ <;> rw [hsw] at h
    · exact Option.noConfusion h
    · simp only [] at h
      by_cases hc : c = '+'
      · rw [if_pos hc] at h
        by_cases hds2 : takeDigits (skipWs r1) = []
        · rw [if_pos hds2] at h; exact Option.noConfusion h
        · rw [if_neg hds2] at h
          obtain rfl := Option.some.inj h
          have h1 := captureVal_pos l s hsub hds h0
          omega
      · rw [if_neg hc] at h; exact Option.noConfusion h

theorem case8At_pos (s l : List Char) (n : ℕ) (hsub : l ⊆ s)
    (h0 : ∀ c ∈ s, c ≠ '0') (h : case8At l = some n) : 0 < n := by
  rcases l with _ | ⟨c, t⟩
  · exact Option.noConfusion h
  · simp only [case8At] at h
    by_cases hst : isStarX c = true
    · rw [if_pos hst] at h
      by_cases hds : takeDigits (skipWs t) = []
      · rw [if_pos hds] at h; exact Option.noConfusion h
      · rw [if_neg hds] at h
        obtain rfl := Option.some.inj h
        exact captureVal_pos (skipWs t) s
          (fun x hx => hsub (List.mem_cons_of_mem c (skipWs_subset t hx))) hds h0
    · rw [if_neg hst] at h; exact Option.noConfusion h

theorem searchCase1_pos (s : List Char) (h0 : ∀ c ∈ s, c ≠ '0') :
    ∀ l, l ⊆ s → ∀ n, searchCase1 l = some n → 0 < n := by
  intro l
  induction l with
  | nil => intro _ n h; exact Option.noConfusion h
  | cons c t ih =>
    intro hsub n h
    rcases orElse_sound _ _ _ h with h1 | h1
    · exact case1At_pos s (c :: t) n hsub h0 h1
    · exact ih (fun x hx => hsub (List.mem_cons_of_mem c hx)) n h1

theorem searchCase2_pos (s : List Char) (h0 : ∀ c ∈ s, c ≠ '0') :
    ∀ l, l ⊆ s → ∀ n, searchCase2 l = some n → 0 < n := by
  intro l
  induction l with
  | nil => intro _ n h; exact Option.noConfusion h
  | cons c t ih =>
    intro hsub n h
    rcases orElse_sound _ _ _ h with h1 | h1
    · exact case2At_pos s (c :: t) n hsub h0 h1
    · exact ih (fun x hx => hsub (List.mem_cons_of_mem c hx)) n h1

theorem searchCase3_pos (s : List Char) (h0 : ∀ c ∈ s, c ≠ '0') :
    ∀ l, l ⊆ s → ∀ n, searchCase3 l = some n → 0 < n := by
  intro l
  induction l with
  | nil => intro _ n h; exact Option.noConfusion h
  | cons c t ih =>
    intro hsub n h
    rcases orElse_sound _ _ _ h with h1 | h1
    · exact case3At_pos s (c :: t) n hsub h0 h1
    · exact ih (fun x hx => hsub (List.mem_cons_of_mem c hx)) n h1

theorem searchCase5_pos (s : List Char) (h0 : ∀ c ∈ s, c ≠ '0') :
    ∀ l prev, l ⊆ s → ∀ n, searchCase5 prev l = some n → 0 < n := by
  intro l
  induction l with
  | nil => intro _ _ n h; exact Option.noConfusion h
  | cons c t ih =>
    intro prev hsub n h
    rcases orElse_sound _ _ _ h with h1 | h1
    · rcases prev with _ | p
      · simp only [] at h1
        rw [if_pos trivial] at h1
        exact case5At_pos s (c :: t) n hsub h0 h1
      · simp only [] at h1
        by_cases hw : isWordCh p = true
        · rw [if_neg (by simp [hw])] at h1
          exact Option.noConfusion h1
        · rw [Bool.not_eq_true] at hw
          rw [if_pos (by simp [hw])] at h1
          exact case5At_pos s (c :: t) n hsub h0 h1
    · exact ih (some c) (fun x hx => hsub (List.mem_cons_of_mem c hx)) n h1

theorem searchCase6_pos (s : List Char) (h0 : ∀ c ∈ s, c ≠ '0') :
    ∀ l prev, l ⊆ s → ∀ n, searchCase6 prev l = some n → 0 < n := by
  intro l
  induction l with
  | nil => intro _ _ n h; exact Option.noConfusion h
  | cons c t ih =>
    intro prev hsub n h
    rcases orElse_sound _ _ _ h with h1 | h1
    · rcases prev with _ | p
      · simp only [] at h1
        rw [if_pos trivial] at h1
        exact case6At_pos s (c :: t) n hsub h0 h1
      · simp only [] at h1
        by_cases hw : isWordCh p = true
        · rw [if_neg (by simp [hw])] at h1
          exact Option.noConfusion h1
        · rw [Bool.not_eq_true] at hw
          rw [if_pos (by simp [hw])] at h1
          exact case6At_pos s (c :: t) n hsub h0 h1
    · exact ih (some c) (fun x hx => hsub (List.mem_cons_of_mem c hx)) n h1

theorem searchCase7_pos (s : List Char) (h0 : ∀ c ∈ s, c ≠ '0') :
    ∀ l, l ⊆ s → ∀ n, searchCase7 l = some n → 0 < n := by
  intro l
  induction l with
  | nil => intro _ n h; exact Option.noConfusion h
  | cons c t ih =>
    intro hsub n h
    rcases orElse_sound _ _ _ h with h1 | h1
    · exact case7At_pos s (c :: t) n hsub h0 h1
    · exact ih (fun x hx => hsub (List.mem_cons_of_mem c hx)) n h1

theorem searchCase8_pos (s : List Char) (h0 : ∀ c ∈ s, c ≠ '0') :
    ∀ l, l ⊆ s → ∀ n, searchCase8 l = some n → 0 < n := by
  intro l
  induction l with
  | nil => intro _ n h; exact Option.noConfusion h
  | cons c t ih =>
    intro hsub n h
    rcases orElse_sound _ _ _ h with h1 | h1
    · exact case8At_pos s (c :: t) n hsub h0 h1
    · exact ih (fun x hx => hsub (List.mem_cons_of_mem c hx)) n h1

/-- Claim C7 (amended): the extractor returns either "no match" (exactly
when none of the eight recognizers fires) or an integer; the integer is
strictly positive provided the normalized name contains no `'0'` digit
and any chained-multiplication product stays below `2^63` (so NumPy's
int64 arithmetic does not wrap).  Without those provisos the original
claim fails: a zero count such as "0PCS" yields 0, and an astronomically
large chained product can wrap to a non-positive int64. -/
theorem claim_C7_null_or_positive (s : List Char)
    (h0 : ∀ c ∈ pyStrip (upperChars s), c ≠ '0')
    (hp : (case4Scan (pyStrip (upperChars s))).prod < 2 ^ 63) :
    (extract_units_per_carton (some s) = none ↔
      (searchCase1 (pyStrip (upperChars s)) = none ∧
        searchCase2 (pyStrip (upperChars s)) = none ∧
        searchCase3 (pyStrip (upperChars s)) = none ∧
        case4Scan (pyStrip (upperChars s)) = [] ∧
        searchCase5 none (pyStrip (upperChars s)) = none ∧
        searchCase6 none (pyStrip (upperChars s)) = none ∧
        searchCase7 (pyStrip (upperChars s)) = none ∧
        searchCase8 (pyStrip (upperChars s)) = none)) ∧
    (extract_units_per_carton (some s) = none ∨
      ∃ z : ℤ, 0 < z ∧ extract_units_per_carton (some s) = some z) := by
  have hE : extract_units_per_carton (some s) = eucCascade (pyStrip (upperChars s)) := rfl
  set m := pyStrip (upperChars s) with hm
  have hsub : m ⊆ m := fun x hx => hx
  have natpos : ∀ k : ℕ, 0 < k → (0 : ℤ) < (k : ℤ) := fun k hk => by exact_mod_cast hk
  rw [hE]
  unfold eucCascade
  rcases h1 : searchCase1 m with _ | k1
  case some =>
    refine ⟨⟨fun h => Option.noConfusion h, fun ⟨ha, _⟩ => Option.noConfusion ha⟩, ?_⟩
    exact Or.inr ⟨k1, natpos k1 (searchCase1_pos m h0 m hsub k1 h1), rfl⟩
  rcases h2 : searchCase2 m with _ | k2
  case some =>
    refine ⟨⟨fun h => Option.noConfusion h,
      fun ⟨_, ha, _⟩ => Option.noConfusion ha⟩, ?_⟩
    exact Or.inr ⟨k2, natpos k2 (searchCase2_pos m h0 m hsub k2 h2), rfl⟩
  rcases h3 : searchCase3 m with _ | k3
  case some =>
    refine ⟨⟨fun h => Option.noConfusion h,
      fun ⟨_, _, ha, _⟩ => Option.noConfusion ha⟩, ?_⟩
    exact Or.inr ⟨k3, natpos k3 (searchCase3_pos m h0 m hsub k3 h3), rfl⟩
  rcases h4 : case4Scan m with _ | ⟨v1, vs⟩
  case cons =>
    have hvpos : ∀ v ∈ case4Scan m, 0 < v := case4Scan_pos m m hsub h0
    rcases vs with _ | ⟨v2, vs2⟩
    · refine ⟨⟨fun h => Option.noConfusion h,
        fun ⟨_, _, _, ha, _⟩ => List.noConfusion ha⟩, ?_⟩
      refine Or.inr ⟨v1, natpos v1 (hvpos v1 (by rw [h4]; simp)), rfl⟩
    · refine ⟨⟨fun h => Option.noConfusion h,
        fun ⟨_, _, _, ha, _⟩ => List.noConfusion ha⟩, ?_⟩
      have hall : ∀ v ∈ v1 :: v2 :: vs2, 0 < v := by
        intro v hv; exact hvpos v (by rw [h4]; exact hv)
      have hprodlt : (v1 :: v2 :: vs2).prod < 2 ^ 63 := by rw [← h4]; exact hp
      have hprodpos : 0 < (v1 :: v2 :: vs2).prod :=
        List.prod_pos hall
      have hle : ∀ v ∈ v1 :: v2 :: vs2, v ≤ (v1 :: v2 :: vs2).prod :=
        List.single_le_prod (fun x hx => hall x hx)
      have hsmall : (v1 :: v2 :: vs2).all (fun n => n < 2 ^ 63) = true := by
        rw [List.all_eq_true]
        intro x hx
        exact decide_eq_true (lt_of_le_of_lt (hle x hx) hprodlt)
      have hnp : npProdZ (v1 :: v2 :: vs2) = ((v1 :: v2 :: vs2).prod : ℤ) := by
        unfold npProdZ
        rw [if_pos hsmall]
        have hlt : ((v1 :: v2 :: vs2).prod : ℤ) < 2 ^ 63 := by exact_mod_cast hprodlt
        have hge : (0 : ℤ) ≤ ((v1 :: v2 :: vs2).prod : ℤ) := by positivity
        rw [Int.emod_eq_of_lt (by omega) (by omega)]
        ring
      refine Or.inr ⟨npProdZ (v1 :: v2 :: vs2), ?_, rfl⟩
      rw [hnp]
      exact natpos _ hprodpos
  rcases h5 : searchCase5 none m with _ | k5
  case some =>
    refine ⟨⟨fun h => Option.noConfusion h,
      fun ⟨_, _, _, _, ha, _⟩ => Option.noConfusion ha⟩, ?_⟩
    exact Or.inr ⟨k5, natpos k5 (searchCase5_pos m h0 m none hsub k5 h5), rfl⟩
  rcases h6 : searchCase6 none m with _ | k6
  case some =>
    refine ⟨⟨fun h => Option.noConfusion h,
      fun ⟨_, _, _, _, _, ha, _⟩ => Option.noConfusion ha⟩, ?_⟩
    exact Or.inr ⟨k6, natpos k6 (searchCase6_pos m h0 m none hsub k6 h6), rfl⟩
  rcases h7 : searchCase7 m with _ | k7
  case some =>
    refine ⟨⟨fun h => Option.noConfusion h,
      fun ⟨_, _, _, _, _, _, ha, _⟩ => Option.noConfusion ha⟩, ?_⟩
    exact Or.inr ⟨k7, natpos k7 (searchCase7_pos m h0 m hsub k7 h7), rfl⟩
  rcases h8 : searchCase8 m with _ | k8
  case some =>
    refine ⟨⟨fun h => Option.noConfusion h,
      fun ⟨_, _, _, _, _, _, _, ha⟩ => Option.noConfusion ha⟩, ?_⟩
    exact Or.inr ⟨k8, natpos k8 (searchCase8_pos m h0 m hsub k8 h8), rfl⟩
  exact ⟨⟨fun _ => ⟨rfl, rfl, rfl, rfl, rfl, rfl, rfl, rfl⟩, fun _ => rfl⟩, Or.inl rfl⟩

/-- Claim C7 witness: the amended theorem at "96PCS" (all captures
nonzero, no chained multiplication), whose result is the positive 96. -/
theorem claim_C7_witness :
    (∀ c ∈ pyStrip (upperChars "96PCS".data), c ≠ '0') ∧
    (case4Scan (pyStrip (upperChars "96PCS".data))).prod < 2 ^ 63 ∧
    (extract_units_per_carton (some "96PCS".data) = none ∨
      ∃ z : ℤ, 0 < z ∧ extract_units_per_carton (some "96PCS".data) = some z) := by
  refine ⟨by decide, by decide, ?_⟩
  exact (claim_C7_null_or_positive "96PCS".data (by decide) (by decide)).2

/-! ### Catalog consolidation (`final_df`, Merging_code.py 334-341)

`pd.concat(all_data, ignore_index=True)` is list concatenation;
`drop_duplicates(subset=['Product_Name', 'Supplier'])` keeps the first row
per key in order (pandas treats `NaN` keys as equal, matching `Option`
equality); the `Product_ID` column is `[f"product_{i+1}" for i in range(n)]`. -/

structure CleanRow where
  product_name : Option (List Char)
  serial_number : Option (List Char)
  supplier : List Char
  weight_quantity : Option (List Char)
  packaging_type : List Char
  units_per_carton : Option ℤ
deriving DecidableEq

/-- The deduplication key: the (Product_Name, Supplier) pair. -/
def rowKey (r : CleanRow) : Option (List Char) × List Char := (r.product_name, r.supplier)

/-- Model of `drop_duplicates(subset=..., keep='first')`. -/
def dropDupFirst (seen : List (Option (List Char) × List Char)) :
    List CleanRow → List CleanRow
  | [] => []
  | r :: t =>
    if rowKey r ∈ seen then dropDupFirst seen t
    else r :: dropDupFirst (rowKey r :: seen) t

/-- Model of `pd.concat` + `drop_duplicates` + `reset_index`. -/
def consolidate (batches : List (List CleanRow)) : List CleanRow :=
  dropDupFirst [] batches.flatten

/-- A `Product_ID` string `f"product_{n}"`. -/
def productId (n : ℕ) : List Char := "product_".data ++ natRepr n

/-- The final table: each consolidated row tagged with its dense 1-based
`Product_ID`. -/
def finalTable (batches : List (List CleanRow)) : List (List Char × CleanRow) :=
  (consolidate batches).enum.map (fun p => (productId (p.1 + 1), p.2))

theorem digitsVal_append_one (l : List Char) (c : Char) :
    digitsVal (l ++ [c]) = 10 * digitsVal l + (c.toNat - 48) := by
  unfold digitsVal
  rw [List.foldl_append]
  rfl

theorem toNat_ofNat_digit (d : ℕ) (hd : d < 10) :
    (Char.ofNat (48 + d)).toNat = 48 + d := by
  interval_cases d <;> decide

theorem digitsVal_natReprAux (fuel n : ℕ) (h : n < fuel) :
    digitsVal (natReprAux fuel n) = n := by
  induction fuel generalizing n with
  | zero => omega
  | succ f ih =>
    by_cases h10 : n < 10
    · simp only [natReprAux, if_pos h10]
      show 10 * 0 + ((Char.ofNat (48 + n)).toNat - 48) = n
      rw [toNat_ofNat_digit n h10]
      omega
    · simp only [natReprAux, if_neg h10]
      rw [digitsVal_append_one]
      have hdiv : n / 10 < f := by
        have h1 : n / 10 < n := Nat.div_lt_self (by omega) (by omega)
        omega
      rw [ih (n / 10) hdiv, toNat_ofNat_digit (n % 10) (Nat.mod_lt n (by omega))]
      omega

theorem natRepr_inj (a b : ℕ) (h : natRepr a = natRepr b) : a = b := by
  have ha := digitsVal_natReprAux (a + 1) a (by omega)
  have hb := digitsVal_natReprAux (b + 1) b (by omega)
  rw [← ha, ← hb]
  unfold natRepr at h
  rw [h]

theorem productId_inj (a b : ℕ) (h : productId a = productId b) : a = b :=
  natRepr_inj a b (List.append_cancel_left h)

theorem ddf_nodup_keys (l : List CleanRow) :
    ∀ seen, ((dropDupFirst seen l).map rowKey).Nodup ∧
      ∀ k ∈ (dropDupFirst seen l).map rowKey, k ∉ seen := by
  induction l with
  | nil =>
    intro seen
    refine ⟨List.nodup_nil, ?_⟩
    intro k hk
    simp only [dropDupFirst, List.map_nil] at hk
    exact absurd hk (List.not_mem_nil k)
  | cons r t ih =>
    intro seen
    by_cases hk : rowKey r ∈ seen
    · simp only [dropDupFirst, if_pos hk]
      exact ih seen
    · simp only [dropDupFirst, if_neg hk, List.map_cons]
      obtain ⟨ihn, ihs⟩ := ih (rowKey r :: seen)
      refine ⟨List.nodup_cons.mpr ⟨?_, ihn⟩, ?_⟩
      · intro hmem
        exact (ihs (rowKey r) hmem) (by simp)
      · intro k hk2
        rcases List.mem_cons.mp hk2 with rfl | hk2
        · exact hk
        · intro hks
          exact (ihs k hk2) (List.mem_cons_of_mem _ hks)

theorem ddf_covers (l : List CleanRow) :
    ∀ seen r, r ∈ l → rowKey r ∈ seen ∨
      ∃ r2 ∈ dropDupFirst seen l, rowKey r2 = rowKey r := by
  induction l with
  | nil => intro _ _ hr; cases hr
  | cons a t ih =>
    intro seen r hr
    by_cases hk : rowKey a ∈ seen
    · simp only [dropDupFirst, if_pos hk]
      rcases List.mem_cons.mp hr with rfl | hr
      · exact Or.inl hk
      · exact ih seen r hr
    · simp only [dropDupFirst, if_neg hk]
      rcases List.mem_cons.mp hr with rfl | hr
      · exact Or.inr ⟨_, List.mem_cons_self _ _, rfl⟩
      · rcases ih (rowKey a :: seen) r hr with hin | ⟨r2, hr2, hkeq⟩
        · rcases List.mem_cons.mp hin with heq | hin
          · exact Or.inr ⟨a, by simp, heq.symm⟩
          · exact Or.inl hin
        · exact Or.inr ⟨r2, List.mem_cons_of_mem a hr2, hkeq⟩

theorem ddf_first (l : List CleanRow) :
    ∀ seen r2, r2 ∈ dropDupFirst seen l → rowKey r2 ∉ seen ∧
      l.find? (fun x => decide (rowKey x = rowKey r2)) = some r2 := by
  induction l with
  | nil => intro _ _ hr; cases hr
  | cons a t ih =>
    intro seen r2 hr2
    by_cases hk : rowKey a ∈ seen
    · simp only [dropDupFirst, if_pos hk] at hr2
      obtain ⟨hnot, hfind⟩ := ih seen r2 hr2
      have hne : rowKey a ≠ rowKey r2 := fun he => hnot (he ▸ hk)
      refine ⟨hnot, ?_⟩
      rw [List.find?_cons_of_neg _ (by simp [hne]), hfind]
    · simp only [dropDupFirst, if_neg hk] at hr2
      rcases List.mem_cons.mp hr2 with rfl | hr2
      · exact ⟨hk, by rw [List.find?_cons_of_pos _ (by simp)]⟩
      · obtain ⟨hnot, hfind⟩ := ih (rowKey a :: seen) r2 hr2
        have hne : rowKey a ≠ rowKey r2 := fun he => hnot (by simp [he])
        refine ⟨fun hs => hnot (List.mem_cons_of_mem _ hs), ?_⟩
        rw [List.find?_cons_of_neg _ (by simp [hne]), hfind]

theorem ddf_sublist (l : List CleanRow) :
    ∀ seen, (dropDupFirst seen l).Sublist l := by
  induction l with
  | nil => intro _; exact List.Sublist.refl []
  | cons a t ih =>
    intro seen
    by_cases hk : rowKey a ∈ seen
    · simp only [dropDupFirst, if_pos hk]
      exact (ih seen).cons a
    · simp only [dropDupFirst, if_neg hk]
      exact (ih (rowKey a :: seen)).cons₂ a

/-- Claim C6: consolidation deduplicates on (product_name, supplier)
keeping the first occurrence in concatenation order, its output is a
subsequence of the concatenation with pairwise distinct keys covering
every input key, and the assigned Product_IDs are exactly the dense
sequence `product_1 .. product_n` in final row order, without repeats. -/
theorem claim_C6_consolidation_dense_ids (batches : List (List CleanRow)) :
    ((consolidate batches).map rowKey).Nodup ∧
    (∀ r ∈ batches.flatten, ∃ r2 ∈ consolidate batches, rowKey r2 = rowKey r) ∧
    (∀ r2 ∈ consolidate batches,
      (batches.flatten).find? (fun x => decide (rowKey x = rowKey r2)) = some r2) ∧
    (consolidate batches).Sublist batches.flatten ∧
    (finalTable batches).map Prod.fst =
      (List.range (consolidate batches).length).map (fun i => productId (i + 1)) ∧
    ((finalTable batches).map Prod.fst).Nodup := by
  have hids : (finalTable batches).map Prod.fst =
      (List.range (consolidate batches).length).map (fun i => productId (i + 1)) := by
    unfold finalTable
    rw [List.map_map]
    have h1 : (Prod.fst ∘ fun p : ℕ × CleanRow => (productId (p.1 + 1), p.2)) =
        (fun i => productId (i + 1)) ∘ Prod.fst := rfl
    rw [h1, ← List.map_map, List.enum_map_fst]
  refine ⟨(ddf_nodup_keys batches.flatten []).1, ?_, ?_, ddf_sublist batches.flatten [], hids, ?_⟩
  · intro r hr
    rcases ddf_covers batches.flatten [] r hr with hin | h
    · cases hin
    · exact h
  · intro r2 hr2
    exact (ddf_first batches.flatten [] r2 hr2).2
  · rw [hids]
    apply List.Nodup.map
    · intro a b hab
      have := productId_inj (a + 1) (b + 1) hab
      omega
    · exact List.nodup_range _

/-- Demonstration batches for the consolidation witness: two batches
whose first rows share a (product_name, supplier) key. -/
def demoRowA : CleanRow :=
  ⟨some "A".data, none, "S1".data, none, "CTN".data, none⟩

def demoRowB : CleanRow :=
  ⟨some "B".data, none, "S1".data, none, "NON-CTN".data, none⟩

def demoRowA2 : CleanRow :=
  ⟨some "A".data, some "9".data, "S1".data, none, "NON-CTN".data, some 4⟩

def demoBatches : List (List CleanRow) := [[demoRowA, demoRowB], [demoRowA2]]

/-- Claim C6 witness: on two batches sharing a key, the consolidated
catalog has pairwise-distinct keys, keeps the earlier duplicate (the
duplicate key resolves to the first batch's row), and the IDs are
duplicate-free. -/
theorem claim_C6_witness :
    ((consolidate demoBatches).map rowKey).Nodup ∧
    demoBatches.flatten.find?
      (fun x => decide (rowKey x = rowKey demoRowA2)) = some demoRowA ∧
    ((finalTable demoBatches).map Prod.fst).Nodup := by
  have h := claim_C6_consolidation_dense_ids demoBatches
  refine ⟨h.1, ?_, h.2.2.2.2.2⟩
  have hmem : demoRowA ∈ consolidate demoBatches := by decide
  have hfind := h.2.2.1 demoRowA hmem
  have hkey : rowKey demoRowA2 = rowKey demoRowA := by decide
  rw [hkey]
  exact hfind

/-! ### Similarity scorer (`compute_similarity`, Cosine_Similarity_Code.py 101-104)

`TfidfVectorizer().fit([text1, text2])` tokenizes with the default
analyzer (lowercase, token pattern `\b\w\w+\b`: maximal word-character
runs of length ≥ 2) and builds the vocabulary (the set of terms of the
two documents); it raises `ValueError` ("empty vocabulary") when that set
is empty.  `transform` produces, per document, the vector of raw term
counts weighted by the smoothed idf `ln((1+n)/(1+df)) + 1` with `n = 2`
documents; `cosine_similarity` L2-normalizes the rows (a zero row stays
zero) and returns their inner product.  The arithmetic is modelled over
`ℝ` (exact reals in place of IEEE doubles). -/

def wordRunsAux : List Char → List Char → List (List Char)
  | [], acc => if acc = [] then [] else [acc.reverse]
  | c :: t, acc =>
    if isWordCh c then wordRunsAux t (c :: acc)
    else if acc = [] then wordRunsAux t [] else acc.reverse :: wordRunsAux t []

/-- Maximal word-character runs of a string. -/
def wordRuns (s : List Char) : List (List Char) := wordRunsAux s []

/-- The default sklearn analyzer: lowercase, then keep the maximal
word-character runs of length at least 2. -/
def sklearnTokens (s : List Char) : List (List Char) :=
  (wordRuns (pyLower s)).filter (fun t => decide (2 ≤ t.length))

example : sklearnTokens "ab cd".data = ["ab".data, "cd".data] := by decide
example : sklearnTokens "x".data = [] := by decide
example : sklearnTokens "".data = [] := by decide
example : sklearnTokens "Not Available".data = ["not".data, "available".data] := by decide

/-- Number of the two documents containing term `t`. -/
def docFreq (T1 T2 : List (List Char)) (t : List Char) : ℕ :=
  (if t ∈ T1 then 1 else 0) + (if t ∈ T2 then 1 else 0)

/-- Smoothed idf over the two-document corpus: `ln((1+n)/(1+df)) + 1`
with `n = 2`. -/
noncomputable def skIdf (T1 T2 : List (List Char)) (t : List Char) : ℝ :=
  Real.log ((1 + 2) / (1 + (docFreq T1 T2 t : ℝ))) + 1

/-- One entry of a document's tf-idf vector: raw count times idf. -/
noncomputable def tfidfEntry (T1 T2 doc : List (List Char)) (t : List Char) : ℝ :=
  (doc.count t : ℝ) * skIdf T1 T2 t

/-- Inner product of the tf-idf vectors of `d` and `e` over the
vocabulary of the pair. -/
noncomputable def vecDot (T1 T2 d e : List (List Char)) : ℝ :=
  (((T1 ++ T2).dedup).map (fun t => tfidfEntry T1 T2 d t * tfidfEntry T1 T2 e t)).sum

/-- Cosine similarity with sklearn's zero-safe normalization: a document
with zero norm yields similarity 0. -/
noncomputable def cosineSim (T1 T2 : List (List Char)) : ℝ :=
  if Real.sqrt (vecDot T1 T2 T1 T1) = 0 ∨ Real.sqrt (vecDot T1 T2 T2 T2) = 0 then 0
  else vecDot T1 T2 T1 T2 /
    (Real.sqrt (vecDot T1 T2 T1 T1) * Real.sqrt (vecDot T1 T2 T2 T2))

/-- Model of `compute_similarity`: `Except.error ()` is the
empty-vocabulary `ValueError`. -/
noncomputable def compute_similarity (text1 text2 : List Char) : Except Unit ℝ :=
  if sklearnTokens text1 = [] ∧ sklearnTokens text2 = [] then Except.error ()
  else Except.ok (cosineSim (sklearnTokens text1) (sklearnTokens text2))

theorem docFreq_comm (T1 T2 : List (List Char)) (t : List Char) :
    docFreq T1 T2 t = docFreq T2 T1 t := Nat.add_comm _ _

theorem skIdf_comm (T1 T2 : List (List Char)) (t : List Char) :
    skIdf T1 T2 t = skIdf T2 T1 t := by
  unfold skIdf
  rw [docFreq_comm]

theorem tfidfEntry_comm (T1 T2 doc : List (List Char)) (t : List Char) :
    tfidfEntry T1 T2 doc t = tfidfEntry T2 T1 doc t := by
  unfold tfidfEntry
  rw [skIdf_comm]

theorem vecDot_comm_corpus (T1 T2 d e : List (List Char)) :
    vecDot T1 T2 d e = vecDot T2 T1 d e := by
  unfold vecDot
  have hfun : (fun t => tfidfEntry T1 T2 d t * tfidfEntry T1 T2 e t) =
      (fun t => tfidfEntry T2 T1 d t * tfidfEntry T2 T1 e t) := by
    funext t
    rw [tfidfEntry_comm, tfidfEntry_comm T1 T2 e]
  rw [hfun]
  exact List.Perm.sum_eq (List.Perm.map _ (List.Perm.dedup List.perm_append_comm))

theorem vecDot_swap_docs (T1 T2 d e : List (List Char)) :
    vecDot T1 T2 d e = vecDot T1 T2 e d := by
  unfold vecDot
  congr 1
  apply List.map_congr_left
  intro t _
  exact mul_comm _ _

theorem cosineSim_comm (T1 T2 : List (List Char)) :
    cosineSim T1 T2 = cosineSim T2 T1 := by
  unfold cosineSim
  rw [show vecDot T1 T2 T1 T1 = vecDot T2 T1 T1 T1 from vecDot_comm_corpus T1 T2 T1 T1,
    show vecDot T1 T2 T2 T2 = vecDot T2 T1 T2 T2 from vecDot_comm_corpus T1 T2 T2 T2,
    show vecDot T1 T2 T1 T2 = vecDot T2 T1 T2 T1 from
      (vecDot_comm_corpus T1 T2 T1 T2).trans (vecDot_swap_docs T2 T1 T1 T2)]
  by_cases h : Real.sqrt (vecDot T2 T1 T1 T1) = 0 ∨ Real.sqrt (vecDot T2 T1 T2 T2) = 0
  · rw [if_pos h, if_pos (Or.symm h)]
  · rw [if_neg h, if_neg (fun h2 => h (Or.symm h2))]
    rw [mul_comm]

/-- Symmetry of the scorer (used by claims C10 and C2; sklearn's sorted
vocabulary, idf and inner product are all invariant under swapping the
two input strings). -/
theorem compute_similarity_comm (a b : List Char) :
    compute_similarity a b = compute_similarity b a := by
  unfold compute_similarity
  by_cases h : sklearnTokens a = [] ∧ sklearnTokens b = []
  · rw [if_pos h, if_pos ⟨h.2, h.1⟩]
  · rw [if_neg h, if_neg (fun h2 => h ⟨h2.2, h2.1⟩), cosineSim_comm]

theorem vecDot_left_nil (T2 e : List (List Char)) :
    vecDot [] T2 [] e = 0 := by
  unfold vecDot
  apply List.sum_eq_zero
  intro x hx
  rcases List.mem_map.mp hx with ⟨t, -, rfl⟩
  unfold tfidfEntry
  rw [List.count_nil]
  push_cast
  ring

theorem vecDot_right_nil (T1 d : List (List Char)) :
    vecDot T1 [] d [] = 0 := by
  unfold vecDot
  apply List.sum_eq_zero
  intro x hx
  rcases List.mem_map.mp hx with ⟨t, -, rfl⟩
  unfold tfidfEntry
  rw [List.count_nil]
  push_cast
  ring

/-- Claim C2 (amended): the scorer raises exactly when both strings
tokenize to zero terms (sklearn's empty-vocabulary `ValueError`); when
exactly one side tokenizes to zero terms the result is 0.0.  The original
claim fails: the scorer is not total, and main's single try/except means
one such failure abandons the remaining records of the batch. -/
theorem claim_C2_degenerate_scoring (t1 t2 : List Char) :
    (compute_similarity t1 t2 = Except.error () ↔
      sklearnTokens t1 = [] ∧ sklearnTokens t2 = []) ∧
    (sklearnTokens t1 = [] → sklearnTokens t2 ≠ [] →
      compute_similarity t1 t2 = Except.ok 0) ∧
    (sklearnTokens t2 = [] → sklearnTokens t1 ≠ [] →
      compute_similarity t1 t2 = Except.ok 0) := by
  refine ⟨?_, ?_, ?_⟩
  · unfold compute_similarity
    by_cases h : sklearnTokens t1 = [] ∧ sklearnTokens t2 = []
    · rw [if_pos h]
      exact ⟨fun _ => h, fun _ => rfl⟩
    · rw [if_neg h]
      exact ⟨fun he => Except.noConfusion he, fun hc => absurd hc h⟩
  · intro ha hb
    unfold compute_similarity
    rw [if_neg (fun h2 => hb h2.2), ha]
    have hc : cosineSim [] (sklearnTokens t2) = 0 := by
      unfold cosineSim
      rw [if_pos (Or.inl (by rw [vecDot_left_nil, Real.sqrt_zero]))]
    rw [hc]
  · intro hb ha
    unfold compute_similarity
    rw [if_neg (fun h2 => ha h2.1), hb]
    have hc : cosineSim (sklearnTokens t1) [] = 0 := by
      unfold cosineSim
      rw [if_pos (Or.inr (by rw [vecDot_right_nil, Real.sqrt_zero]))]
    rw [hc]

/-- Claim C2 counterexample: on the pair ("", "x") — both sides tokenize
to zero terms since single-character words are dropped — the scorer
raises instead of returning 0.0. -/
theorem claim_C2_counterexample :
    compute_similarity "".data "x".data = Except.error () ∧
    Except.error () ≠ (Except.ok (0 : ℝ)) := by
  constructor
  · unfold compute_similarity
    rw [if_pos ⟨by decide, by decide⟩]
  · exact fun h => Except.noConfusion h

/-- Claim C2 witness: the amended theorem at ("", "ab") — one degenerate
side — yields 0.0. -/
theorem claim_C2_witness :
    compute_similarity "".data "ab".data = Except.ok 0 := by
  exact (claim_C2_degenerate_scoring "".data "ab".data).2.1 (by decide) (by decide)

/-- Claim C10: the scorer is symmetric in its two arguments. -/
theorem claim_C10_similarity_symmetric (a b : List Char) :
    compute_similarity a b = compute_similarity b a :=
  compute_similarity_comm a b

/-! ### Match resolver (`main`, Cosine_Similarity_Code.py 108-172)

One record of the match-query batch: `input_title` (defaulting to `""`
via `record.get`), and five candidate slots with optional `url_i` /
`url_i_title` keys (`none` models a missing key or JSON null).  The loop
skips a slot when its title key is missing or its title is falsy (the
empty string); otherwise it scores the lowercased title against the
lowercased stripped input title, records the 3-decimal rounded score,
and updates the running best on strictly greater similarity, reading
`record[url_key]` (a `KeyError`, modelled as an error, if the url key is
missing).  After the loop, `best_similarity >= 0.6` decides
Available/Not Available.  The float literals `0.6` and `round(x, 3)` are
modelled exactly (as `3/5` and half-even rounding of `1000x`); the
nearest IEEE doubles differ from these by less than `2⁻⁵⁰`, immaterial
to every comparison performed here. -/

structure UrlSlot where
  url : Option (List Char)
  title : Option (List Char)

structure MatchQueryIn where
  input_title : Option (List Char)
  slot1 : UrlSlot
  slot2 : UrlSlot
  slot3 : UrlSlot
  slot4 : UrlSlot
  slot5 : UrlSlot

/-- The slots in loop order, paired with their 1-based index
(`for i in range(1, 6)`). -/
def slotList (r : MatchQueryIn) : List (ℕ × UrlSlot) :=
  [(1, r.slot1), (2, r.slot2), (3, r.slot3), (4, r.slot4), (5, r.slot5)]

/-- Python 3 `round(x)` on a real value: nearest integer, ties to even. -/
noncomputable def pyRoundHalfEvenR (x : ℝ) : ℤ :=
  if x - ⌊x⌋ < 1 / 2 then ⌊x⌋
  else if 1 / 2 < x - ⌊x⌋ then ⌊x⌋ + 1
  else if 2 ∣ ⌊x⌋ then ⌊x⌋ else ⌊x⌋ + 1

/-- Python `round(x, 3)` on a real value. -/
noncomputable def pyRound3R (x : ℝ) : ℝ := (pyRoundHalfEvenR (1000 * x) : ℝ) / 1000

structure MatchOutput where
  sims : List (ℕ × ℝ)
  best_similarity : ℝ
  matched_url : Option (List Char)
  status : List Char

/-- The per-record loop over the candidate slots, carrying the recorded
similarities, the running best and the best slot's url. -/
noncomputable def resolveLoop (inp : List Char) :
    List (ℕ × UrlSlot) → List (ℕ × ℝ) → ℝ → Option (List Char) →
    Except Unit (List (ℕ × ℝ) × ℝ × Option (List Char))
  | [], sims, best, burl => Except.ok (sims, best, burl)
  | (i, sl) :: rest, sims, best, burl =>
    match sl.title with
    | none => resolveLoop inp rest sims best burl
    | some t =>
      if t = [] then resolveLoop inp rest sims best burl
      else
        match compute_similarity inp (pyLower t) with
        | Except.error e => Except.error e
        | Except.ok sim =>
          if best < sim then
            match sl.url with
            | none => Except.error ()
            | some u => resolveLoop inp rest (sims ++ [(i, pyRound3R sim)]) sim (some u)
          else resolveLoop inp rest (sims ++ [(i, pyRound3R sim)]) best burl

/-- Processing of one record: run the loop from best = 0, then apply the
0.6 threshold; the stored `best_similarity` field is the rounded value. -/
noncomputable def processRecord (r : MatchQueryIn) : Except Unit MatchOutput :=
  match resolveLoop (pyLower (pyStrip (r.input_title.getD [])))
      (slotList r) [] 0 none with
  | Except.error e => Except.error e
  | Except.ok (sims, best, burl) =>
    if (3 / 5 : ℝ) ≤ best then
      Except.ok ⟨sims, pyRound3R best, burl, "Available".data⟩
    else
      Except.ok ⟨sims, pyRound3R best, some "Not available everywhere".data,
        "Not Available".data⟩

/-- Similarity the loop would compute for a slot (`none` for slots that
are skipped or whose scoring raises). -/
noncomputable def slotSim (inp : List Char) (sl : UrlSlot) : Option ℝ :=
  match sl.title with
  | none => none
  | some t =>
    if t = [] then none
    else
      match compute_similarity inp (pyLower t) with
      | Except.error _ => none
      | Except.ok v => some v

theorem skIdf_shared (T1 T2 : List (List Char)) (t : List Char)
    (h1 : t ∈ T1) (h2 : t ∈ T2) : skIdf T1 T2 t = 1 := by
  unfold skIdf docFreq
  rw [if_pos h1, if_pos h2]
  norm_num

theorem vecDot_self_nonneg_terms (T1 T2 d : List (List Char)) :
    ∀ x ∈ ((T1 ++ T2).dedup).map
      (fun t => tfidfEntry T1 T2 d t * tfidfEntry T1 T2 d t), 0 ≤ x := by
  intro x hx
  rcases List.mem_map.mp hx with ⟨t, -, rfl⟩
  exact mul_self_nonneg _

theorem vecDot_self_pos (T : List (List Char)) (hT : T ≠ []) :
    0 < vecDot T T T T := by
  match T, hT with
  | t0 :: ts, _ =>
    set T := t0 :: ts with hTdef
    have hmem : t0 ∈ T := by rw [hTdef]; simp
    have hvoc : t0 ∈ (T ++ T).dedup :=
      List.mem_dedup.mpr (List.mem_append.mpr (Or.inl hmem))
    have hterm : tfidfEntry T T T t0 * tfidfEntry T T T t0 ∈
        ((T ++ T).dedup).map (fun t => tfidfEntry T T T t * tfidfEntry T T T t) :=
      List.mem_map_of_mem _ hvoc
    have hentry : (1 : ℝ) ≤ tfidfEntry T T T t0 := by
      unfold tfidfEntry
      rw [skIdf_shared T T t0 hmem hmem, mul_one]
      have : 0 < T.count t0 := List.count_pos_iff.mpr hmem
      exact_mod_cast this
    have htermpos : 0 < tfidfEntry T T T t0 * tfidfEntry T T T t0 := by nlinarith
    have hle := List.single_le_sum (vecDot_self_nonneg_terms T T T) _ hterm
    unfold vecDot
    exact lt_of_lt_of_le htermpos hle

theorem cosineSim_self_one (T : List (List Char)) (hT : T ≠ []) :
    cosineSim T T = 1 := by
  have hpos := vecDot_self_pos T hT
  have hs : Real.sqrt (vecDot T T T T) ≠ 0 := by
    rw [Real.sqrt_ne_zero (le_of_lt hpos)]
    exact ne_of_gt hpos
  unfold cosineSim
  rw [if_neg (by rintro (h | h) <;> exact hs h)]
  rw [Real.mul_self_sqrt (le_of_lt hpos)]
  exact div_self (ne_of_gt hpos)

/-- Self-similarity of a non-degenerate string is exactly 1 (every term
has document frequency 2, hence idf exactly 1). -/
theorem compute_similarity_self (t : List Char) (h : sklearnTokens t ≠ []) :
    compute_similarity t t = Except.ok 1 := by
  unfold compute_similarity
  rw [if_neg (fun h2 => h h2.1), cosineSim_self_one _ h]

theorem pyRound3R_one : pyRound3R 1 = 1 := by
  unfold pyRound3R pyRoundHalfEvenR
  have hf : ⌊(1000 : ℝ) * 1⌋ = 1000 := by norm_num
  rw [hf]
  rw [if_pos (by push_cast; norm_num)]
  norm_num

theorem pyRound3R_ge_threshold (x : ℝ) (h : 3 / 5 ≤ x) : 3 / 5 ≤ pyRound3R x := by
  unfold pyRound3R pyRoundHalfEvenR
  have hf : (600 : ℤ) ≤ ⌊1000 * x⌋ := by
    rw [Int.le_floor]
    push_cast
    linarith
  have hcast : ∀ z : ℤ, 600 ≤ z → (3 : ℝ) / 5 ≤ (z : ℝ) / 1000 := by
    intro z hz
    have : (600 : ℝ) ≤ (z : ℝ) := by exact_mod_cast hz
    linarith
  by_cases h1 : 1000 * x - ⌊1000 * x⌋ < 1 / 2
  · rw [if_pos h1]; exact hcast _ hf
  · rw [if_neg h1]
    by_cases h2 : 1 / 2 < 1000 * x - ⌊1000 * x⌋
    · rw [if_pos h2]; exact hcast _ (by omega)
    · rw [if_neg h2]
      by_cases h3 : 2 ∣ ⌊1000 * x⌋
      · rw [if_pos h3]; exact hcast _ hf
      · rw [if_neg h3]; exact hcast _ (by omega)

/-- Record whose only candidate slot carries the scraper's "Not
Available" sentinel as its title, identical to the input title. -/
def sentinelRecord : MatchQueryIn :=
  ⟨some "Not Available".data,
    ⟨some "u1".data, some "Not Available".data⟩,
    ⟨none, none⟩, ⟨none, none⟩, ⟨none, none⟩, ⟨none, none⟩⟩

theorem processRecord_sentinel :
    processRecord sentinelRecord =
      Except.ok ⟨[(1, (1 : ℝ))], 1, some "u1".data, "Available".data⟩ := by
  have hsim : compute_similarity (pyLower (pyStrip (sentinelRecord.input_title.getD [])))
      (pyLower ("Not Available".data)) = Except.ok 1 := by
    have h1 : pyLower (pyStrip (sentinelRecord.input_title.getD [])) =
        "not available".data := by decide
    have h2 : pyLower ("Not Available".data) = "not available".data := by decide
    rw [h1, h2]
    exact compute_similarity_self _ (by decide)
  unfold processRecord
  have hslots : slotList sentinelRecord =
      [(1, ⟨some "u1".data, some "Not Available".data⟩),
        (2, ⟨none, none⟩), (3, ⟨none, none⟩), (4, ⟨none, none⟩), (5, ⟨none, none⟩)] := rfl
  rw [hslots]
  simp only [resolveLoop]
  rw [if_neg (by decide : ¬("Not Available".data : List Char) = [])]
  rw [hsim]
  simp only []
  rw [if_pos (by norm_num : (0 : ℝ) < 1)]
  simp only [resolveLoop, pyRound3R_one]
  rw [if_pos (by norm_num : (3 : ℝ) / 5 ≤ 1)]
  simp only [List.nil_append]

/-- Record with two candidate slots sharing the identical title, so both
score similarity 1; used to exercise the tie-breaking of the resolver. -/
def tieRecord : MatchQueryIn :=
  ⟨some "ab cd".data,
    ⟨some "u1".data, some "ab cd".data⟩,
    ⟨some "u2".data, some "ab cd".data⟩,
    ⟨none, none⟩, ⟨none, none⟩, ⟨none, none⟩⟩

theorem processRecord_tie :
    processRecord tieRecord =
      Except.ok ⟨[(1, (1 : ℝ)), (2, (1 : ℝ))], 1, some "u1".data, "Available".data⟩ := by
  have hsim : compute_similarity (pyLower (pyStrip (tieRecord.input_title.getD [])))
      (pyLower ("ab cd".data)) = Except.ok 1 := by
    have h1 : pyLower (pyStrip (tieRecord.input_title.getD [])) = "ab cd".data := by decide
    have h2 : pyLower ("ab cd".data) = "ab cd".data := by decide
    rw [h1, h2]
    exact compute_similarity_self _ (by decide)
  unfold processRecord
  have hslots : slotList tieRecord =
      [(1, ⟨some "u1".data, some "ab cd".data⟩),
        (2, ⟨some "u2".data, some "ab cd".data⟩),
        (3, ⟨none, none⟩), (4, ⟨none, none⟩), (5, ⟨none, none⟩)] := rfl
  rw [hslots]
  simp only [resolveLoop]
  rw [if_neg (by decide : ¬("ab cd".data : List Char) = [])]
  rw [hsim]
  simp only []
  rw [if_pos (by norm_num : (0 : ℝ) < 1)]
  rw [if_neg (by decide : ¬("ab cd".data : List Char) = [])]
  rw [if_neg (by norm_num : ¬(1 : ℝ) < 1)]
  simp only [pyRound3R_one]
  rw [if_pos (by norm_num : (3 : ℝ) / 5 ≤ 1)]
  simp only [List.nil_append, List.append_assoc, List.singleton_append]

/-! ### A record whose rounded best similarity reaches 0.6 while the raw
best similarity does not (Cosine_Similarity_Code.py 142-171). -/

/-- `n` copies of the word `w` separated by single spaces. -/
def sepRep (w : List Char) : ℕ → List Char
  | 0 => []
  | n + 1 => if n = 0 then w else w ++ ' ' :: sepRep w n

/-- Input title: term counts (7, 14, 22) over the vocabulary aa, bb, cc. -/
def c3Doc1 : List Char :=
  sepRep "aa".data 7 ++ ' ' :: (sepRep "bb".data 14 ++ ' ' :: sepRep "cc".data 22)

/-- Candidate title: term counts (11, 68, 4) over the same vocabulary. -/
def c3Doc2 : List Char :=
  sepRep "aa".data 11 ++ ' ' :: (sepRep "bb".data 68 ++ ' ' :: sepRep "cc".data 4)

set_option maxRecDepth 100000 in
theorem c3_vocab : ((sklearnTokens c3Doc1 ++ sklearnTokens c3Doc2).dedup) =
    ["aa".data, "bb".data, "cc".data] := by decide

set_option maxRecDepth 100000 in
theorem c3_counts1 : (sklearnTokens c3Doc1).count "aa".data = 7 ∧
    (sklearnTokens c3Doc1).count "bb".data = 14 ∧
    (sklearnTokens c3Doc1).count "cc".data = 22 := by decide

set_option maxRecDepth 100000 in
theorem c3_counts2 : (sklearnTokens c3Doc2).count "aa".data = 11 ∧
    (sklearnTokens c3Doc2).count "bb".data = 68 ∧
    (sklearnTokens c3Doc2).count "cc".data = 4 := by decide

set_option maxRecDepth 100000 in
theorem c3_mem : ("aa".data ∈ sklearnTokens c3Doc1 ∧ "aa".data ∈ sklearnTokens c3Doc2) ∧
    ("bb".data ∈ sklearnTokens c3Doc1 ∧ "bb".data ∈ sklearnTokens c3Doc2) ∧
    ("cc".data ∈ sklearnTokens c3Doc1 ∧ "cc".data ∈ sklearnTokens c3Doc2) := by decide

theorem c3_idf_one : skIdf (sklearnTokens c3Doc1) (sklearnTokens c3Doc2) "aa".data = 1 ∧
    skIdf (sklearnTokens c3Doc1) (sklearnTokens c3Doc2) "bb".data = 1 ∧
    skIdf (sklearnTokens c3Doc1) (sklearnTokens c3Doc2) "cc".data = 1 :=
  ⟨skIdf_shared _ _ _ c3_mem.1.1 c3_mem.1.2,
    skIdf_shared _ _ _ c3_mem.2.1.1 c3_mem.2.1.2,
    skIdf_shared _ _ _ c3_mem.2.2.1 c3_mem.2.2.2⟩

theorem c3_entries1 :
    tfidfEntry (sklearnTokens c3Doc1) (sklearnTokens c3Doc2) (sklearnTokens c3Doc1) "aa".data = 7 ∧
    tfidfEntry (sklearnTokens c3Doc1) (sklearnTokens c3Doc2) (sklearnTokens c3Doc1) "bb".data = 14 ∧
    tfidfEntry (sklearnTokens c3Doc1) (sklearnTokens c3Doc2) (sklearnTokens c3Doc1) "cc".data = 22 := by
  unfold tfidfEntry
  rw [c3_idf_one.1, c3_idf_one.2.1, c3_idf_one.2.2,
    c3_counts1.1, c3_counts1.2.1, c3_counts1.2.2]
  norm_num

theorem c3_entries2 :
    tfidfEntry (sklearnTokens c3Doc1) (sklearnTokens c3Doc2) (sklearnTokens c3Doc2) "aa".data = 11 ∧
    tfidfEntry (sklearnTokens c3Doc1) (sklearnTokens c3Doc2) (sklearnTokens c3Doc2) "bb".data = 68 ∧
    tfidfEntry (sklearnTokens c3Doc1) (sklearnTokens c3Doc2) (sklearnTokens c3Doc2) "cc".data = 4 := by
  unfold tfidfEntry
  rw [c3_idf_one.1, c3_idf_one.2.1, c3_idf_one.2.2,
    c3_counts2.1, c3_counts2.2.1, c3_counts2.2.2]
  norm_num

theorem c3_dots :
    vecDot (sklearnTokens c3Doc1) (sklearnTokens c3Doc2) (sklearnTokens c3Doc1) (sklearnTokens c3Doc1) = 729 ∧
    vecDot (sklearnTokens c3Doc1) (sklearnTokens c3Doc2) (sklearnTokens c3Doc2) (sklearnTokens c3Doc2) = 4761 ∧
    vecDot (sklearnTokens c3Doc1) (sklearnTokens c3Doc2) (sklearnTokens c3Doc1) (sklearnTokens c3Doc2) = 1117 := by
  unfold vecDot
  rw [c3_vocab]
  simp only [List.map_cons, List.map_nil, List.sum_cons, List.sum_nil]
  rw [c3_entries1.1, c3_entries1.2.1, c3_entries1.2.2,
    c3_entries2.1, c3_entries2.2.1, c3_entries2.2.2]
  norm_num

theorem c3_cosine :
    cosineSim (sklearnTokens c3Doc1) (sklearnTokens c3Doc2) = 1117 / 1863 := by
  unfold cosineSim
  rw [c3_dots.1, c3_dots.2.1, c3_dots.2.2]
  have h27 : Real.sqrt 729 = 27 := by
    rw [show (729 : ℝ) = 27 ^ 2 by norm_num, Real.sqrt_sq (by norm_num)]
  have h69 : Real.sqrt 4761 = 69 := by
    rw [show (4761 : ℝ) = 69 ^ 2 by norm_num, Real.sqrt_sq (by norm_num)]
  rw [h27, h69]
  rw [if_neg (by norm_num)]
  norm_num

theorem c3_round : pyRound3R (1117 / 1863) = 3 / 5 := by
  unfold pyRound3R pyRoundHalfEvenR
  have hf : ⌊(1000 : ℝ) * (1117 / 1863)⌋ = 599 := by
    rw [Int.floor_eq_iff]
    constructor <;> norm_num
  rw [hf]
  rw [if_neg (by push_cast; norm_num), if_pos (by push_cast; norm_num)]
  norm_num

/-- Record whose single candidate scores 1117/1863, just below 0.6 but
rounding up to 0.600. -/
def c3Record : MatchQueryIn :=
  ⟨some c3Doc1, ⟨some "u1".data, some c3Doc2⟩,
    ⟨none, none⟩, ⟨none, none⟩, ⟨none, none⟩, ⟨none, none⟩⟩

set_option maxRecDepth 100000 in
theorem processRecord_c3 :
    processRecord c3Record =
      Except.ok ⟨[(1, (3 : ℝ) / 5)], 3 / 5, some "Not available everywhere".data,
        "Not Available".data⟩ := by
  have hsim : compute_similarity (pyLower (pyStrip (c3Record.input_title.getD [])))
      (pyLower c3Doc2) = Except.ok (1117 / 1863) := by
    have h1 : pyLower (pyStrip (c3Record.input_title.getD [])) = c3Doc1 := by decide
    have h2 : pyLower c3Doc2 = c3Doc2 := by decide
    rw [h1, h2]
    unfold compute_similarity
    rw [if_neg (by decide : ¬(sklearnTokens c3Doc1 = [] ∧ sklearnTokens c3Doc2 = []))]
    rw [c3_cosine]
  unfold processRecord
  have hslots : slotList c3Record =
      [(1, ⟨some "u1".data, some c3Doc2⟩), (2, ⟨none, none⟩), (3, ⟨none, none⟩),
        (4, ⟨none, none⟩), (5, ⟨none, none⟩)] := rfl
  rw [hslots]
  simp only [resolveLoop]
  rw [if_neg (by decide : ¬(c3Doc2 : List Char) = [])]
  rw [hsim]
  simp only []
  rw [if_pos (by norm_num : (0 : ℝ) < 1117 / 1863)]
  simp only []
  rw [if_neg (by norm_num : ¬(3 : ℝ) / 5 ≤ 1117 / 1863)]
  rw [c3_round]
  simp only [List.nil_append]

theorem notAvail_ne_avail : ("Not Available".data : List Char) ≠ "Available".data := by
  decide

/-- C3: for every record the resolver's status is "Available" exactly when
the raw (pre-rounding) best similarity reaches the 0.6 threshold; the
stored `best_similarity` field is the rounded value, so "Available" still
forces the stored field to be at least 0.6, and a non-"Available" status
forces the sentinel `matched_url` — but the converse on the stored field
fails, as the counterexample shows. -/
theorem claim_C3_resolver_invariant (r : MatchQueryIn) (out : MatchOutput)
    (h : processRecord r = Except.ok out) :
    (∃ sims best burl,
      resolveLoop (pyLower (pyStrip (r.input_title.getD []))) (slotList r) [] 0 none =
        Except.ok (sims, best, burl) ∧
      out.best_similarity = pyRound3R best ∧
      (out.status = "Available".data ↔ (3 : ℝ) / 5 ≤ best)) ∧
    (out.status = "Available".data → (3 : ℝ) / 5 ≤ out.best_similarity) ∧
    (out.status ≠ "Available".data →
      out.matched_url = some "Not available everywhere".data ∧
      out.status = "Not Available".data) := by
  unfold processRecord at h
  rcases hloop : resolveLoop (pyLower (pyStrip (r.input_title.getD []))) (slotList r) [] 0 none
    with e | ⟨sims, best, burl⟩
  · rw [hloop] at h; exact Except.noConfusion h
  · rw [hloop] at h
    simp only [] at h
    by_cases hth : (3 : ℝ) / 5 ≤ best
    · rw [if_pos hth] at h
      have hout := (Except.ok.inj h).symm
      subst hout
      refine ⟨⟨sims, best, burl, rfl, rfl, ⟨fun _ => hth, fun _ => rfl⟩⟩, ?_, ?_⟩
      · intro _
        exact pyRound3R_ge_threshold best hth
      · intro hne
        exact absurd rfl hne
    · rw [if_neg hth] at h
      have hout := (Except.ok.inj h).symm
      subst hout
      refine ⟨⟨sims, best, burl, rfl, rfl, ?_⟩, ?_, ?_⟩
      · exact ⟨fun hc => absurd hc notAvail_ne_avail, fun hc => absurd hc hth⟩
      · intro hc
        exact absurd hc notAvail_ne_avail
      · intro _
        exact ⟨rfl, rfl⟩

/-- C3 counterexample: the stored rounded `best_similarity` equals 0.6
while the status is "Not Available". -/
theorem claim_C3_counterexample :
    processRecord c3Record =
      Except.ok ⟨[(1, (3 : ℝ) / 5)], 3 / 5, some "Not available everywhere".data,
        "Not Available".data⟩ ∧
    (3 : ℝ) / 5 ≤ 3 / 5 ∧ ("Not Available".data : List Char) ≠ "Available".data :=
  ⟨processRecord_c3, le_refl _, by decide⟩

theorem claim_C3_witness :
    (∃ sims best burl,
      resolveLoop (pyLower (pyStrip (sentinelRecord.input_title.getD [])))
          (slotList sentinelRecord) [] 0 none = Except.ok (sims, best, burl) ∧
      (MatchOutput.mk [(1, (1 : ℝ))] 1 (some "u1".data)
          "Available".data).best_similarity = pyRound3R best ∧
      ((MatchOutput.mk [(1, (1 : ℝ))] 1 (some "u1".data)
          "Available".data).status = "Available".data ↔ (3 : ℝ) / 5 ≤ best)) ∧
    ((MatchOutput.mk [(1, (1 : ℝ))] 1 (some "u1".data)
        "Available".data).status = "Available".data →
      (3 : ℝ) / 5 ≤ (MatchOutput.mk [(1, (1 : ℝ))] 1 (some "u1".data)
        "Available".data).best_similarity) ∧
    ((MatchOutput.mk [(1, (1 : ℝ))] 1 (some "u1".data)
        "Available".data).status ≠ "Available".data →
      (MatchOutput.mk [(1, (1 : ℝ))] 1 (some "u1".data)
        "Available".data).matched_url = some "Not available everywhere".data ∧
      (MatchOutput.mk [(1, (1 : ℝ))] 1 (some "u1".data)
        "Available".data).status = "Not Available".data) :=
  claim_C3_resolver_invariant sentinelRecord
    (MatchOutput.mk [(1, (1 : ℝ))] 1 (some "u1".data) "Available".data)
    processRecord_sentinel

/-! ### Which slots receive a recorded similarity (Cosine_Similarity_Code.py
134-146): only a missing or empty title is skipped; the scraper's "Not
Available" sentinel is an ordinary non-empty string and is scored. -/

/-- A slot the loop skips without scoring: title missing or empty. -/
def skippedSlot (sl : UrlSlot) : Bool :=
  match sl.title with
  | none => true
  | some t => decide (t = [])

theorem resolveLoop_sims (inp : List Char) (L : List (ℕ × UrlSlot))
    (sims : List (ℕ × ℝ)) (best : ℝ) (burl : Option (List Char))
    (sims2 : List (ℕ × ℝ)) (best2 : ℝ) (burl2 : Option (List Char))
    (h : resolveLoop inp L sims best burl = Except.ok (sims2, best2, burl2)) :
    ∃ ext, sims2 = sims ++ ext ∧
      ext.map Prod.fst = (L.filter (fun p => !skippedSlot p.2)).map Prod.fst := by
  induction L generalizing sims best burl with
  | nil =>
    simp only [resolveLoop, Except.ok.injEq, Prod.mk.injEq] at h
    exact ⟨[], by rw [← h.1]; simp, by simp⟩
  | cons p rest ih =>
    rcases p with ⟨i, sl⟩
    rcases hti : sl.title with _ | t
    · simp only [resolveLoop, hti] at h
      rcases ih _ _ _ h with ⟨ext, he, hm⟩
      refine ⟨ext, he, ?_⟩
      rw [List.filter_cons, if_neg (by simp [skippedSlot, hti])]
      exact hm
    · by_cases hte : t = []
      · simp only [resolveLoop, hti, if_pos hte] at h
        rcases ih _ _ _ h with ⟨ext, he, hm⟩
        refine ⟨ext, he, ?_⟩
        rw [List.filter_cons, if_neg (by simp [skippedSlot, hti, hte])]
        exact hm
      · simp only [resolveLoop, hti, if_neg hte] at h
        rcases hcs : compute_similarity inp (pyLower t) with e | sim
        · rw [hcs] at h
          exact Except.noConfusion h
        · rw [hcs] at h
          simp only [] at h
          by_cases hbs : best < sim
          · rw [if_pos hbs] at h
            rcases hu : sl.url with _ | u
            · rw [hu] at h
              exact Except.noConfusion h
            · rw [hu] at h
              simp only [] at h
              rcases ih _ _ _ h with ⟨ext, he, hm⟩
              refine ⟨(i, pyRound3R sim) :: ext, ?_, ?_⟩
              · rw [he, List.append_assoc, List.singleton_append]
              · rw [List.filter_cons, if_pos (by simp [skippedSlot, hti, hte])]
                simp only [List.map_cons]
                rw [hm]
          · rw [if_neg hbs] at h
            rcases ih _ _ _ h with ⟨ext, he, hm⟩
            refine ⟨(i, pyRound3R sim) :: ext, ?_, ?_⟩
            · rw [he, List.append_assoc, List.singleton_append]
            · rw [List.filter_cons, if_pos (by simp [skippedSlot, hti, hte])]
              simp only [List.map_cons]
              rw [hm]

/-- C4: in a successfully processed record the recorded per-slot
similarities are exactly the slots whose title is present and non-empty —
a slot carrying the "Not Available" sentinel string as its title is
scored like any other, and (see the counterexample) can become the
selected best match. -/
theorem claim_C4_scored_slots (r : MatchQueryIn) (out : MatchOutput)
    (h : processRecord r = Except.ok out) :
    out.sims.map Prod.fst =
      ((slotList r).filter (fun p => !skippedSlot p.2)).map Prod.fst := by
  unfold processRecord at h
  rcases hloop : resolveLoop (pyLower (pyStrip (r.input_title.getD []))) (slotList r) [] 0 none
    with e | ⟨sims, best, burl⟩
  · rw [hloop] at h; exact Except.noConfusion h
  · rw [hloop] at h
    simp only [] at h
    rcases resolveLoop_sims _ _ _ _ _ _ _ _ hloop with ⟨ext, he, hm⟩
    have hsims : out.sims = sims := by
      by_cases hth : (3 : ℝ) / 5 ≤ best
      · rw [if_pos hth] at h
        rw [← (Except.ok.inj h)]
      · rw [if_neg hth] at h
        rw [← (Except.ok.inj h)]
    rw [hsims, he, List.nil_append, hm]

/-- C4 counterexample: the record's first slot carries the scraper's
"Not Available" sentinel as its title, yet it is scored (similarity 1
recorded under index 1) and becomes the selected best match. -/
theorem claim_C4_counterexample :
    sentinelRecord.slot1.title = some "Not Available".data ∧
    processRecord sentinelRecord =
      Except.ok ⟨[(1, (1 : ℝ))], 1, some "u1".data, "Available".data⟩ :=
  ⟨rfl, processRecord_sentinel⟩

theorem claim_C4_witness :
    (MatchOutput.mk [(1, (1 : ℝ))] 1 (some "u1".data) "Available".data).sims.map Prod.fst =
      ((slotList sentinelRecord).filter (fun p => !skippedSlot p.2)).map Prod.fst :=
  claim_C4_scored_slots sentinelRecord
    (MatchOutput.mk [(1, (1 : ℝ))] 1 (some "u1".data) "Available".data)
    processRecord_sentinel

/-! ### Stable argmax of the similarity loop (Cosine_Similarity_Code.py
144-146): the strict `>` update keeps the earliest slot on ties. -/

theorem resolveLoop_argmax (inp : List Char) (L : List (ℕ × UrlSlot))
    (sims : List (ℕ × ℝ)) (best : ℝ) (burl : Option (List Char))
    (sims2 : List (ℕ × ℝ)) (best2 : ℝ) (burl2 : Option (List Char))
    (h : resolveLoop inp L sims best burl = Except.ok (sims2, best2, burl2)) :
    (best2 = best ∧ burl2 = burl ∧
      ∀ p ∈ L, ∀ w, slotSim inp p.2 = some w → w ≤ best) ∨
    (∃ pre i sl post v u, L = pre ++ (i, sl) :: post ∧
      slotSim inp sl = some v ∧ best < v ∧ sl.url = some u ∧
      best2 = v ∧ burl2 = some u ∧
      (∀ p ∈ L, ∀ w, slotSim inp p.2 = some w → w ≤ v) ∧
      (∀ p ∈ pre, ∀ w, slotSim inp p.2 = some w → w < v)) := by
  induction L generalizing sims best burl with
  | nil =>
    simp only [resolveLoop, Except.ok.injEq, Prod.mk.injEq] at h
    exact Or.inl ⟨h.2.1.symm, h.2.2.symm, by simp⟩
  | cons p rest ih =>
    rcases p with ⟨i, sl⟩
    rcases hti : sl.title with _ | t
    · have hss : slotSim inp sl = none := by
        unfold slotSim; rw [hti]
      simp only [resolveLoop, hti] at h
      rcases ih _ _ _ h with ⟨hb, hu, hall⟩ | ⟨pre, j, sl', post, v, u, hdec, hsv, hbv, hurl, hb2, hb3, hall, hpre⟩
      · refine Or.inl ⟨hb, hu, ?_⟩
        intro q hq w hw
        rcases List.mem_cons.mp hq with rfl | hq'
        · rw [hss] at hw; exact Option.noConfusion hw
        · exact hall q hq' w hw
      · refine Or.inr ⟨(i, sl) :: pre, j, sl', post, v, u, by rw [hdec]; rfl,
          hsv, hbv, hurl, hb2, hb3, ?_, ?_⟩
        · intro q hq w hw
          rcases List.mem_cons.mp hq with rfl | hq'
          · rw [hss] at hw; exact Option.noConfusion hw
          · exact hall q hq' w hw
        · intro q hq w hw
          rcases List.mem_cons.mp hq with rfl | hq'
          · rw [hss] at hw; exact Option.noConfusion hw
          · exact hpre q hq' w hw
    · by_cases hte : t = []
      · have hss : slotSim inp sl = none := by
          unfold slotSim; rw [hti]; simp only []; rw [if_pos hte]
        simp only [resolveLoop, hti, if_pos hte] at h
        rcases ih _ _ _ h with ⟨hb, hu, hall⟩ | ⟨pre, j, sl', post, v, u, hdec, hsv, hbv, hurl, hb2, hb3, hall, hpre⟩
        · refine Or.inl ⟨hb, hu, ?_⟩
          intro q hq w hw
          rcases List.mem_cons.mp hq with rfl | hq'
          · rw [hss] at hw; exact Option.noConfusion hw
          · exact hall q hq' w hw
        · refine Or.inr ⟨(i, sl) :: pre, j, sl', post, v, u, by rw [hdec]; rfl,
            hsv, hbv, hurl, hb2, hb3, ?_, ?_⟩
          · intro q hq w hw
            rcases List.mem_cons.mp hq with rfl | hq'
            · rw [hss] at hw; exact Option.noConfusion hw
            · exact hall q hq' w hw
          · intro q hq w hw
            rcases List.mem_cons.mp hq with rfl | hq'
            · rw [hss] at hw; exact Option.noConfusion hw
            · exact hpre q hq' w hw
      · simp only [resolveLoop, hti, if_neg hte] at h
        rcases hcs : compute_similarity inp (pyLower t) with e | sim
        · rw [hcs] at h
          exact Except.noConfusion h
        · have hss : slotSim inp sl = some sim := by
            unfold slotSim; rw [hti]; simp only []; rw [if_neg hte, hcs]
          rw [hcs] at h
          simp only [] at h
          by_cases hbs : best < sim
          · rw [if_pos hbs] at h
            rcases hu : sl.url with _ | u
            · rw [hu] at h
              exact Except.noConfusion h
            · rw [hu] at h
              simp only [] at h
              rcases ih _ _ _ h with ⟨hb, hu2, hall⟩ | ⟨pre, j, sl', post, v, u', hdec, hsv, hbv, hurl, hb2, hb3, hall, hpre⟩
              · refine Or.inr ⟨[], i, sl, rest, sim, u, rfl, hss, hbs, hu, hb, hu2, ?_, by simp⟩
                intro q hq w hw
                rcases List.mem_cons.mp hq with rfl | hq'
                · rw [hss] at hw
                  rcases Option.some.inj hw with rfl
                  exact le_refl _
                · exact hall q hq' w hw
              · refine Or.inr ⟨(i, sl) :: pre, j, sl', post, v, u', by rw [hdec]; rfl,
                  hsv, lt_trans hbs hbv, hurl, hb2, hb3, ?_, ?_⟩
                · intro q hq w hw
                  rcases List.mem_cons.mp hq with rfl | hq'
                  · rw [hss] at hw
                    rcases Option.some.inj hw with rfl
                    exact le_of_lt hbv
                  · exact hall q hq' w hw
                · intro q hq w hw
                  rcases List.mem_cons.mp hq with rfl | hq'
                  · rw [hss] at hw
                    rcases Option.some.inj hw with rfl
                    exact hbv
                  · exact hpre q hq' w hw
          · rw [if_neg hbs] at h
            have hsb : sim ≤ best := le_of_not_lt hbs
            rcases ih _ _ _ h with ⟨hb, hu2, hall⟩ | ⟨pre, j, sl', post, v, u', hdec, hsv, hbv, hurl, hb2, hb3, hall, hpre⟩
            · refine Or.inl ⟨hb, hu2, ?_⟩
              intro q hq w hw
              rcases List.mem_cons.mp hq with rfl | hq'
              · rw [hss] at hw
                rcases Option.some.inj hw with rfl
                exact hsb
              · exact hall q hq' w hw
            · refine Or.inr ⟨(i, sl) :: pre, j, sl', post, v, u', by rw [hdec]; rfl,
                hsv, hbv, hurl, hb2, hb3, ?_, ?_⟩
              · intro q hq w hw
                rcases List.mem_cons.mp hq with rfl | hq'
                · rw [hss] at hw
                  rcases Option.some.inj hw with rfl
                  exact le_trans hsb (le_of_lt hbv)
                · exact hall q hq' w hw
              · intro q hq w hw
                rcases List.mem_cons.mp hq with rfl | hq'
                · rw [hss] at hw
                  rcases Option.some.inj hw with rfl
                  exact lt_of_le_of_lt hsb hbv
                · exact hpre q hq' w hw

/-- C8: when a record resolves to status "Available", the selected
`matched_url` belongs to a scored slot with the maximum similarity, and
every slot before it scores strictly below that maximum — so on ties the
earliest slot wins. -/
theorem claim_C8_stable_argmax (r : MatchQueryIn) (out : MatchOutput)
    (h : processRecord r = Except.ok out)
    (hst : out.status = "Available".data) :
    ∃ pre i sl post v u,
      slotList r = pre ++ (i, sl) :: post ∧
      slotSim (pyLower (pyStrip (r.input_title.getD []))) sl = some v ∧
      sl.url = some u ∧ out.matched_url = some u ∧
      (∀ p ∈ slotList r, ∀ w,
        slotSim (pyLower (pyStrip (r.input_title.getD []))) p.2 = some w → w ≤ v) ∧
      (∀ p ∈ pre, ∀ w,
        slotSim (pyLower (pyStrip (r.input_title.getD []))) p.2 = some w → w < v) := by
  unfold processRecord at h
  rcases hloop : resolveLoop (pyLower (pyStrip (r.input_title.getD []))) (slotList r) [] 0 none
    with e | ⟨sims, best, burl⟩
  · rw [hloop] at h; exact Except.noConfusion h
  · rw [hloop] at h
    simp only [] at h
    by_cases hth : (3 : ℝ) / 5 ≤ best
    · rw [if_pos hth] at h
      have hout := (Except.ok.inj h).symm
      subst hout
      rcases resolveLoop_argmax _ _ _ _ _ _ _ _ hloop
        with ⟨hb, -, -⟩ | ⟨pre, i, sl, post, v, u, hdec, hsv, hbv, hurl, hb2, hb3, hall, hpre⟩
      · rw [hb] at hth
        norm_num at hth
      · exact ⟨pre, i, sl, post, v, u, hdec, hsv, hurl, by rw [hb3], hall, hpre⟩
    · rw [if_neg hth] at h
      have hout := (Except.ok.inj h).symm
      subst hout
      exact absurd hst notAvail_ne_avail

theorem claim_C8_witness :
    ∃ pre i sl post v u,
      slotList tieRecord = pre ++ (i, sl) :: post ∧
      slotSim (pyLower (pyStrip (tieRecord.input_title.getD []))) sl = some v ∧
      sl.url = some u ∧
      (MatchOutput.mk [(1, (1 : ℝ)), (2, (1 : ℝ))] 1 (some "u1".data)
        "Available".data).matched_url = some u ∧
      (∀ p ∈ slotList tieRecord, ∀ w,
        slotSim (pyLower (pyStrip (tieRecord.input_title.getD []))) p.2 = some w → w ≤ v) ∧
      (∀ p ∈ pre, ∀ w,
        slotSim (pyLower (pyStrip (tieRecord.input_title.getD []))) p.2 = some w → w < v) :=
  claim_C8_stable_argmax tieRecord
    (MatchOutput.mk [(1, (1 : ℝ)), (2, (1 : ℝ))] 1 (some "u1".data) "Available".data)
    processRecord_tie rfl

/-- C7 counterexample: a quantity token with the number 0 makes the
cascade return 0, which is neither "no match" nor positive. -/
theorem claim_C7_counterexample :
    extract_units_per_carton (some "0PCS".data) = some 0 ∧ ¬(0 : ℤ) < 0 := by
  decide
